import Mathlib

/-!
Verification of the process-hierarchy reconstruction subsystem of benchmon
(src/process.rs and the process-related part of src/main.rs).

Shallow embedding conventions:
* Rust `Result<T, E>` is embedded as `Res T E` below (`.ok` / `.err`).
* `Pid` (an OS process identifier, `i32` in the source, used only for
  equality and ordering) is embedded as `Nat`.
* `BTreeSet<Pid>` is embedded as a strictly-ascending `List Pid`, with
  `setInsert` playing the role of `BTreeSet::insert`; iteration order of a
  `BTreeSet` is exactly the order of the list.
* `HashMap<Pid, ProcessTreeNode>` is embedded as an association list with
  strictly-ascending keys (`NodeMap`), with `mapInsert` / `mapLookup`
  playing the role of the map operations.  A `HashMap` compares equal to
  another exactly when they hold the same key-value pairs, and the sorted
  association list is a canonical representation of that quotient.
* `assert!` panics in the tree builder are embedded as `Except TreePanic`,
  with one `TreePanic` constructor per assertion message; `panic`s and
  `assert_eq!` failures in `get_process_info` are embedded as
  `Except String`.
* The floating-point creation time (`heim::units::Time`) is embedded as an
  `Int` timestamp: the subsystem never computes with it, it only carries it
  to the report.
* `Command` (an OS command line) is embedded as `List String`, `PathBuf` as
  `String`.
-/

/-- Embedding of Rust `Result<T, E>`. -/
inductive Res (T : Type) (E : Type) where
  | ok (val : T)
  | err (e : E)
deriving DecidableEq, Repr

/-- Error which can occur while fetching a specific piece of process
information, without that invalidating the entire `ProcessInfo` struct
(src/process.rs, `ProcessInfoFieldError`). -/
inductive ProcessInfoFieldError where
  | accessDenied
deriving DecidableEq, Repr

/-- Error which invalidates the entire `ProcessInfo` query
(src/process.rs, `ProcessInfoError`). -/
inductive ProcessInfoError where
  | accessDenied
  | noSuchProcess
  | zombieProcess
deriving DecidableEq, Repr

/-- Embedding of the OS process identifier type `Pid`. -/
abbrev Pid := Nat

/-- Result of a detailed initial process info query
(src/process.rs, `ProcessInfo`). -/
structure ProcessInfo where
  parent_pid : Res Pid ProcessInfoFieldError
  name : Res String ProcessInfoFieldError
  exe : Res String ProcessInfoFieldError
  command : Res (List String) ProcessInfoFieldError
  create_time : Res Int ProcessInfoFieldError
deriving DecidableEq, Repr

/-- A node in the process tree from the initial report
(src/process.rs, `ProcessTreeNode`).  `children` embeds a `BTreeSet<Pid>`
as a strictly-ascending list. -/
structure ProcessTreeNode where
  process_info : Res ProcessInfo ProcessInfoError
  children : List Pid
deriving DecidableEq, Repr

/-- Embedding of `HashMap<Pid, ProcessTreeNode>` as an association list
with strictly-ascending keys (a canonical representation of the map). -/
abbrev NodeMap := List (Pid × ProcessTreeNode)

/-- The process tree that is generated and printed during the initial
report (src/process.rs, `ProcessTree`).  `roots` embeds a `BTreeSet<Pid>`
as a strictly-ascending list. -/
structure ProcessTree where
  roots : List Pid
  nodes : NodeMap
deriving DecidableEq, Repr

/-- One constructor per `assert!` message that can abort
`ProcessTree::from` (src/process.rs lines 63 and 85-88).  This is the
batch-level structural-integrity failure channel: it is a separate type
from `ProcessInfoError`, the channel carrying legitimate OS-reported
failures.  (The third assertion of `ProcessTree::from`, "Registered the
same root twice!", guards an insertion of distinct map keys into a fresh
set and cannot fire; the root pass is embedded by `computeRoots` below.) -/
inductive TreePanic where
  | childRegisteredTwice
  | invalidPreexistingInfo
deriving DecidableEq, Repr

/-! ## Sorted-list embedding of `BTreeSet` and of the node `HashMap` -/

/-- Membership-preserving sorted insertion, embedding `BTreeSet::insert`
(the caller checks membership separately to embed the returned `bool`). -/
def setInsert (p : Pid) : List Pid → List Pid
  | [] => [p]
  | q :: rest =>
    if p < q then p :: q :: rest
    else if p = q then q :: rest
    else q :: setInsert p rest

/-- Lookup in the association-list embedding of the node map. -/
def mapLookup (p : Pid) : NodeMap → Option ProcessTreeNode
  | [] => none
  | (q, n) :: rest => if p = q then some n else mapLookup p rest

/-- Key-ordered insert-or-replace in the association-list embedding of the
node map. -/
def mapInsert (p : Pid) (n : ProcessTreeNode) : NodeMap → NodeMap
  | [] => [(p, n)]
  | (q, m) :: rest =>
    if p < q then (p, n) :: (q, m) :: rest
    else if p = q then (p, n) :: rest
    else (q, m) :: mapInsert p n rest

/-! ## The Tree Builder (src/process.rs, `ProcessTree::from`) -/

/-- The placeholder node inserted for a parent process that has not been
seen yet (src/process.rs lines 55-60): a `NoSuchProcess` error is used as
a placeholder outcome, with an initially empty children set. -/
def placeholderInfo : Res ProcessInfo ProcessInfoError :=
  .err .noSuchProcess

/-- First half of one iteration of the `ProcessTree::from` loop
(src/process.rs lines 51-64): register `pid` as a child of `parent_pid`,
creating a placeholder node for `parent_pid` if absent, and panicking if
`pid` was already registered under `parent_pid`. -/
def registerChild (nodes : NodeMap) (parent_pid pid : Pid) :
    Except TreePanic NodeMap :=
  match mapLookup parent_pid nodes with
  | none =>
      .ok (mapInsert parent_pid ⟨placeholderInfo, setInsert pid []⟩ nodes)
  | some node =>
      if pid ∈ node.children then
        .error .childRegisteredTwice
      else
        .ok (mapInsert parent_pid
          ⟨node.process_info, setInsert pid node.children⟩ nodes)

/-- Second half of one iteration of the `ProcessTree::from` loop
(src/process.rs lines 66-90): fill in `pid`'s own node.  A vacant entry is
created with the given info; an occupied entry must currently hold the
placeholder info, which is replaced (the source replaces first and then
asserts on the previous value; observably the same behaviour). -/
def settleNode (nodes : NodeMap) (pid : Pid)
    (process_info : Res ProcessInfo ProcessInfoError) :
    Except TreePanic NodeMap :=
  match mapLookup pid nodes with
  | none => .ok (mapInsert pid ⟨process_info, []⟩ nodes)
  | some node =>
      if node.process_info = placeholderInfo then
        .ok (mapInsert pid ⟨process_info, node.children⟩ nodes)
      else
        .error .invalidPreexistingInfo

/-- One full iteration of the `ProcessTree::from` loop
(src/process.rs lines 47-91). -/
def applyPair (nodes : NodeMap)
    (pair : Pid × Res ProcessInfo ProcessInfoError) :
    Except TreePanic NodeMap :=
  let (pid, process_info) := pair
  let step1 : Except TreePanic NodeMap :=
    match process_info with
    | .ok info =>
        match info.parent_pid with
        | .ok parent_pid => registerChild nodes parent_pid pid
        | .err _ => .ok nodes
    | .err _ => .ok nodes
  match step1 with
  | .error e => .error e
  | .ok nodes => settleNode nodes pid process_info

/-- The root test of the final loop of `ProcessTree::from`
(src/process.rs lines 99-110): a node is a root unless its process info
was obtained and carries a parent pid. -/
def isRootInfo (process_info : Res ProcessInfo ProcessInfoError) : Bool :=
  match process_info with
  | .ok info =>
      match info.parent_pid with
      | .ok _ => false
      | .err _ => true
  | .err _ => true

/-- The final loop of `ProcessTree::from` (src/process.rs lines 99-110):
collect every node whose parent is unknown into the root set.  The node
map is iterated in key order and the keys are distinct, so inserting into
the root `BTreeSet` preserves the ascending order and the "Registered the
same root twice!" assertion cannot fire; the pass is therefore embedded as
a filter of the key-sorted node list. -/
def computeRoots (nodes : NodeMap) : List Pid :=
  (nodes.filter (fun e => isRootInfo e.2.process_info)).map Prod.fst

/-- Embedding of `ProcessTree::from` (src/process.rs lines 38-113): fold
the per-process info over an initially empty node map, then enumerate the
roots. -/
def processTreeFrom (l : List (Pid × Res ProcessInfo ProcessInfoError)) :
    Except TreePanic ProcessTree := do
  let nodes ← l.foldlM applyPair []
  pure ⟨computeRoots nodes, nodes⟩

/-! ## The Tree Reporter (src/process.rs, `ProcessTree::log` / `log_subtree`) -/

/-- One emitted event of the startup report, one constructor per logging
match arm of `log_subtree` (src/process.rs lines 130-196).  The field
values carried by the `found` event are the raw `ProcessInfo` (the source
only formats them).  `lookupPanic` embeds the panic of the
`self.nodes[&current_pid]` indexing on a missing key
(src/process.rs line 127). -/
inductive LogEvent where
  | found (pid : Pid) (info : ProcessInfo)
  | foundAccessDenied (pid : Pid)
  | foundNonexistent (pid : Pid)
  | foundZombie (pid : Pid)
  | lookupPanic (pid : Pid)
deriving DecidableEq, Repr

/-- The pid carried by a log event. -/
def LogEvent.pid : LogEvent → Pid
  | .found p _ => p
  | .foundAccessDenied p => p
  | .foundNonexistent p => p
  | .foundZombie p => p
  | .lookupPanic p => p

/-- The event emitted for one node, per the match of `log_subtree`
(src/process.rs lines 130-196). -/
def nodeEvent (pid : Pid) (process_info : Res ProcessInfo ProcessInfoError) :
    LogEvent :=
  match process_info with
  | .ok info => .found pid info
  | .err .accessDenied => .foundAccessDenied pid
  | .err .noSuchProcess => .foundNonexistent pid
  | .err .zombieProcess => .foundZombie pid

/-- Embedding of `ProcessTree::log_subtree` (src/process.rs lines
125-203): emit the current node's event, then recurse into its children in
ascending order.  The source recurses without any termination guard (and
would recurse forever on a parent-reference cycle, see spec §9); the
embedding makes that explicit with a fuel argument bounding the recursion
depth: a run that exhausts its fuel is one the source would not complete. -/
def logSubtree (t : ProcessTree) : Nat → Pid → List LogEvent
  | 0, _ => []
  | fuel + 1, current_pid =>
    match mapLookup current_pid t.nodes with
    | none => [.lookupPanic current_pid]
    | some node =>
        nodeEvent current_pid node.process_info ::
          (node.children.map (fun child => logSubtree t fuel child)).flatten

/-- Embedding of `ProcessTree::log` (src/process.rs lines 118-122): report
every root subtree, roots in ascending order. -/
def ProcessTree.logEvents (t : ProcessTree) (fuel : Nat) : List LogEvent :=
  (t.roots.map (fun root => logSubtree t fuel root)).flatten

/-! ## Per-process queries (src/process.rs, `get_process_info`) -/

/-- Embedding of an unrecoverable `heim` load failure
(`heim::Error`, opaque to this subsystem; the payload only makes distinct
failures distinguishable). -/
inductive HeimError where
  | load (code : Nat)
deriving DecidableEq, Repr

/-- Embedding of `heim::process::ProcessError` (the error type of both
process enumeration and individual attribute queries). -/
inductive ProcessError where
  | accessDenied (pid : Pid)
  | noSuchProcess (pid : Pid)
  | zombieProcess (pid : Pid)
  | load (e : HeimError)
deriving DecidableEq, Repr

/-- Embedding of a `heim::process::Process` handle, recording the pid it
reports and the response each of the five attribute queries would return
(the queries are asynchronous in the source; each resolves to a
`Result<T, ProcessError>`). -/
structure Process where
  pid : Pid
  parent_pid : Res Pid ProcessError
  name : Res String ProcessError
  exe : Res String ProcessError
  command : Res (List String) ProcessError
  create_time : Res Int ProcessError
deriving DecidableEq, Repr

/-- Outcome of the `get_info_field!` macro of `get_process_info`
(src/process.rs lines 293-331) for one field: either a field value or a
field-level denial (the macro continues), or an early `return` aborting
the record or the whole heim query, or a panic (`assert_eq!` mismatch or
an unknown error variant; the embedded `ProcessError` has no unknown
variants, so only the former arises). -/
inductive FieldTry (T : Type) where
  | field (f : Res T ProcessInfoFieldError)
  | abortRecord (e : ProcessInfoError)
  | abortHeim (e : HeimError)
  | panicked (msg : String)
deriving Repr

/-- Embedding of one expansion of `get_info_field!`
(src/process.rs lines 293-331). -/
def getInfoField {T : Type} (pid : Pid) (query : Res T ProcessError) :
    FieldTry T :=
  match query with
  | .ok info => .field (.ok info)
  | .err (.accessDenied res_pid) =>
      if res_pid = pid then .field (.err .accessDenied)
      else .panicked "assertion failed: res_pid == pid"
  | .err (.noSuchProcess res_pid) =>
      if res_pid = pid then .abortRecord .noSuchProcess
      else .panicked "assertion failed: res_pid == pid"
  | .err (.zombieProcess res_pid) =>
      if res_pid = pid then .abortRecord .zombieProcess
      else .panicked "assertion failed: res_pid == pid"
  | .err (.load e) => .abortHeim e

/-- Embedding of `get_process_info` (src/process.rs lines 282-373).  The
outer `Except String` carries panics; the inner value is the
`heim::Result<(Pid, Result<ProcessInfo, ProcessInfoError>)>` of the
source.  The five fields are queried in the order in which
`get_info_struct!` lists them: parent_pid, name, exe, command,
create_time, and the first record- or heim-level failure aborts the
remaining queries. -/
def getProcessInfo (enumeration_result : Res Process ProcessError) :
    Except String
      (Res (Pid × Res ProcessInfo ProcessInfoError) HeimError) :=
  match enumeration_result with
  | .ok process =>
    let pid := process.pid
    match getInfoField pid process.parent_pid with
    | .panicked m => .error m
    | .abortHeim e => .ok (.err e)
    | .abortRecord e => .ok (.ok (pid, .err e))
    | .field parent_pid =>
      match getInfoField pid process.name with
      | .panicked m => .error m
      | .abortHeim e => .ok (.err e)
      | .abortRecord e => .ok (.ok (pid, .err e))
      | .field name =>
        match getInfoField pid process.exe with
        | .panicked m => .error m
        | .abortHeim e => .ok (.err e)
        | .abortRecord e => .ok (.ok (pid, .err e))
        | .field exe =>
          match getInfoField pid process.command with
          | .panicked m => .error m
          | .abortHeim e => .ok (.err e)
          | .abortRecord e => .ok (.ok (pid, .err e))
          | .field command =>
            match getInfoField pid process.create_time with
            | .panicked m => .error m
            | .abortHeim e => .ok (.err e)
            | .abortRecord e => .ok (.ok (pid, .err e))
            | .field create_time =>
                .ok (.ok (pid,
                  .ok ⟨parent_pid, name, exe, command, create_time⟩))
  | .err (.noSuchProcess pid) => .ok (.ok (pid, .err .noSuchProcess))
  | .err (.zombieProcess pid) => .ok (.ok (pid, .err .zombieProcess))
  | .err (.accessDenied pid) => .ok (.ok (pid, .err .accessDenied))
  | .err (.load e) => .ok (.err e)

/-! ## The batch collection policy (src/main.rs lines 79-81 and 125-126) -/

/-- Embedding of `TryStreamExt::try_collect` over the already-materialized
stream of per-process query results: the first `Err` fails the whole
collection, otherwise all `Ok` payloads are collected in order. -/
def tryCollect {T E : Type} : List (Res T E) → Res (List T) E
  | [] => .ok []
  | .err e :: _ => .err e
  | .ok v :: rest =>
      match tryCollect rest with
      | .err e => .err e
      | .ok vs => .ok (v :: vs)

/-- Embedding of `log_report` (src/process.rs lines 376-381): build the
process tree from the collected per-process info and log it.  The
traversal fuel is the number of nodes, which (as proved below) is enough
for every visit the source's unbounded recursion would perform on an
acyclic tree. -/
def logReport (processes : List (Pid × Res ProcessInfo ProcessInfoError)) :
    Except TreePanic (ProcessTree × List LogEvent) := do
  let t ← processTreeFrom processes
  pure (t, t.logEvents t.nodes.length)

/-- Embedding of the process-reporting path of `main`
(src/main.rs lines 79-81 and 125-126): `try_collect` the enumeration
stream, propagate a batch-fatal failure with `?`, and otherwise run the
tree builder and reporter. -/
def mainProcessReport
    (results : List (Res (Pid × Res ProcessInfo ProcessInfoError) HeimError)) :
    Res (Except TreePanic (ProcessTree × List LogEvent)) HeimError :=
  match tryCollect results with
  | .err e => .err e
  | .ok processes => .ok (logReport processes)

/-! ## Lemmas about the sorted-list set and map embeddings -/

theorem mem_setInsert {x p : Pid} {l : List Pid} :
    x ∈ setInsert p l ↔ x = p ∨ x ∈ l := by
  induction l with
  | nil => simp [setInsert]
  | cons q rest ih =>
    rw [setInsert]
    by_cases h1 : p < q
    · rw [if_pos h1]
      simp [List.mem_cons]
    · rw [if_neg h1]
      by_cases h2 : p = q
      · subst h2
        rw [if_pos rfl]
        simp only [List.mem_cons]
        tauto
      · rw [if_neg h2]
        simp only [List.mem_cons, ih]
        tauto

theorem sorted_setInsert {p : Pid} {l : List Pid}
    (h : List.Sorted (· < ·) l) :
    List.Sorted (· < ·) (setInsert p l) := by
  induction l with
  | nil => simp [setInsert]
  | cons q rest ih =>
    rw [List.sorted_cons] at h
    obtain ⟨hq, hrest⟩ := h
    rw [setInsert]
    by_cases h1 : p < q
    · rw [if_pos h1, List.sorted_cons]
      refine ⟨?_, List.sorted_cons.mpr ⟨hq, hrest⟩⟩
      intro b hb
      rcases List.mem_cons.mp hb with hb | hb
      · exact hb ▸ h1
      · exact h1.trans (hq b hb)
    · rw [if_neg h1]
      by_cases h2 : p = q
      · subst h2
        rw [if_pos rfl]
        exact List.sorted_cons.mpr ⟨hq, hrest⟩
      · rw [if_neg h2, List.sorted_cons]
        refine ⟨?_, ih hrest⟩
        intro b hb
        rcases mem_setInsert.mp hb with hb | hb
        · exact hb ▸ (Nat.lt_of_le_of_ne (Nat.le_of_not_lt h1)
            (fun hqp => h2 hqp.symm))
        · exact hq b hb

theorem sorted_set_ext : ∀ {l₁ l₂ : List Pid},
    List.Sorted (· < ·) l₁ → List.Sorted (· < ·) l₂ →
    (∀ x, x ∈ l₁ ↔ x ∈ l₂) → l₁ = l₂ := by
  intro l₁
  induction l₁ with
  | nil =>
    intro l₂ _ _ hmem
    cases l₂ with
    | nil => rfl
    | cons a rest =>
      exact absurd ((hmem a).mpr (List.mem_cons_self a rest)) (List.not_mem_nil a)
  | cons a₁ rest₁ ih =>
    intro l₂ h₁ h₂ hmem
    cases l₂ with
    | nil =>
      exact absurd ((hmem a₁).mp (List.mem_cons_self a₁ rest₁)) (List.not_mem_nil a₁)
    | cons a₂ rest₂ =>
      rw [List.sorted_cons] at h₁ h₂
      obtain ⟨ha₁, hrest₁⟩ := h₁
      obtain ⟨ha₂, hrest₂⟩ := h₂
      have heq : a₁ = a₂ := by
        by_contra hne
        have m1 : a₁ ∈ rest₂ := by
          rcases List.mem_cons.mp ((hmem a₁).mp (List.mem_cons_self a₁ rest₁)) with h | h
          · exact absurd h hne
          · exact h
        have m2 : a₂ ∈ rest₁ := by
          rcases List.mem_cons.mp ((hmem a₂).mpr (List.mem_cons_self a₂ rest₂)) with h | h
          · exact absurd h.symm hne
          · exact h
        exact Nat.lt_irrefl a₂ ((ha₂ a₁ m1).trans (ha₁ a₂ m2))
      subst heq
      have htail : ∀ x, x ∈ rest₁ ↔ x ∈ rest₂ := by
        intro x
        constructor
        · intro hx
          rcases List.mem_cons.mp ((hmem x).mp (List.mem_cons_of_mem a₁ hx)) with h | h
          · exact absurd (ha₁ x hx) (by rw [h]; exact Nat.lt_irrefl a₁)
          · exact h
        · intro hx
          rcases List.mem_cons.mp ((hmem x).mpr (List.mem_cons_of_mem a₁ hx)) with h | h
          · exact absurd (ha₂ x hx) (by rw [h]; exact Nat.lt_irrefl a₁)
          · exact h
      rw [ih hrest₁ hrest₂ htail]

theorem mapLookup_mapInsert_self (p : Pid) (n : ProcessTreeNode)
    (l : NodeMap) : mapLookup p (mapInsert p n l) = some n := by
  induction l with
  | nil => simp [mapInsert, mapLookup]
  | cons e rest ih =>
    obtain ⟨q, m⟩ := e
    rw [mapInsert]
    by_cases h1 : p < q
    · rw [if_pos h1, mapLookup, if_pos rfl]
    · rw [if_neg h1]
      by_cases h2 : p = q
      · rw [if_pos h2, mapLookup, if_pos rfl]
      · rw [if_neg h2, mapLookup, if_neg h2]
        exact ih

theorem mapLookup_mapInsert_ne {x p : Pid} (hne : x ≠ p)
    (n : ProcessTreeNode) (l : NodeMap) :
    mapLookup x (mapInsert p n l) = mapLookup x l := by
  induction l with
  | nil => simp [mapInsert, mapLookup, hne]
  | cons e rest ih =>
    obtain ⟨q, m⟩ := e
    rw [mapInsert]
    by_cases h1 : p < q
    · rw [if_pos h1, mapLookup, if_neg hne]
    · rw [if_neg h1]
      by_cases h2 : p = q
      · subst h2
        rw [if_pos rfl, mapLookup, if_neg hne, mapLookup, if_neg hne]
      · rw [if_neg h2]
        by_cases h3 : x = q
        · subst h3
          rw [mapLookup, if_pos rfl, mapLookup, if_pos rfl]
        · rw [mapLookup, if_neg h3, mapLookup, if_neg h3]
          exact ih

/-- The keys of the node-map embedding. -/
def mapKeys (l : NodeMap) : List Pid := l.map Prod.fst

theorem mapKeys_cons (q : Pid) (m : ProcessTreeNode) (rest : NodeMap) :
    mapKeys ((q, m) :: rest) = q :: mapKeys rest := rfl

theorem mapLookup_eq_none_iff {p : Pid} {l : NodeMap} :
    mapLookup p l = none ↔ p ∉ mapKeys l := by
  induction l with
  | nil => simp [mapLookup, mapKeys]
  | cons e rest ih =>
    obtain ⟨q, m⟩ := e
    rw [mapKeys_cons]
    by_cases h : p = q
    · subst h
      rw [mapLookup, if_pos rfl]
      simp
    · rw [mapLookup, if_neg h]
      simp only [List.mem_cons, ih]
      tauto

theorem mapLookup_isSome_iff {p : Pid} {l : NodeMap} :
    (mapLookup p l).isSome ↔ p ∈ mapKeys l := by
  rcases h : mapLookup p l with _ | n
  · simp only [Option.isSome_none, Bool.false_eq_true, false_iff]
    exact mapLookup_eq_none_iff.mp h
  · simp only [Option.isSome_some, true_iff]
    by_contra hc
    rw [← mapLookup_eq_none_iff, h] at hc
    exact Option.noConfusion hc

theorem mem_mapKeys_mapInsert {x p : Pid} {n : ProcessTreeNode}
    {l : NodeMap} :
    x ∈ mapKeys (mapInsert p n l) ↔ x = p ∨ x ∈ mapKeys l := by
  constructor
  · intro hx
    by_cases hxp : x = p
    · exact Or.inl hxp
    · right
      have h1 : (mapLookup x (mapInsert p n l)).isSome :=
        mapLookup_isSome_iff.mpr hx
      rw [mapLookup_mapInsert_ne hxp] at h1
      exact mapLookup_isSome_iff.mp h1
  · intro hx
    rw [← mapLookup_isSome_iff]
    by_cases hxp : x = p
    · subst hxp
      rw [mapLookup_mapInsert_self]
      rfl
    · rcases hx with hx | hx
      · exact absurd hx hxp
      · rw [mapLookup_mapInsert_ne hxp]
        exact mapLookup_isSome_iff.mpr hx

theorem sorted_mapKeys_mapInsert {p : Pid} {n : ProcessTreeNode}
    {l : NodeMap} (h : List.Sorted (· < ·) (mapKeys l)) :
    List.Sorted (· < ·) (mapKeys (mapInsert p n l)) := by
  induction l with
  | nil => simp [mapInsert, mapKeys]
  | cons e rest ih =>
    obtain ⟨q, m⟩ := e
    rw [mapKeys_cons, List.sorted_cons] at h
    obtain ⟨hq, hrest⟩ := h
    rw [mapInsert]
    by_cases h1 : p < q
    · rw [if_pos h1, mapKeys_cons, List.sorted_cons]
      refine ⟨?_, by rw [mapKeys_cons, List.sorted_cons]; exact ⟨hq, hrest⟩⟩
      intro b hb
      rw [mapKeys_cons, List.mem_cons] at hb
      rcases hb with hb | hb
      · exact hb ▸ h1
      · exact h1.trans (hq b hb)
    · rw [if_neg h1]
      by_cases h2 : p = q
      · subst h2
        rw [if_pos rfl, mapKeys_cons, List.sorted_cons]
        exact ⟨hq, hrest⟩
      · rw [if_neg h2, mapKeys_cons, List.sorted_cons]
        refine ⟨?_, ih hrest⟩
        intro b hb
        rcases mem_mapKeys_mapInsert.mp hb with hb | hb
        · exact hb ▸ (Nat.lt_of_le_of_ne (Nat.le_of_not_lt h1)
            (fun hqp => h2 hqp.symm))
        · exact hq b hb

theorem sorted_map_ext : ∀ {l₁ l₂ : NodeMap},
    List.Sorted (· < ·) (mapKeys l₁) → List.Sorted (· < ·) (mapKeys l₂) →
    (∀ p, mapLookup p l₁ = mapLookup p l₂) → l₁ = l₂ := by
  intro l₁
  induction l₁ with
  | nil =>
    intro l₂ _ _ hlk
    cases l₂ with
    | nil => rfl
    | cons e rest =>
      obtain ⟨q, m⟩ := e
      have h := hlk q
      rw [mapLookup, mapLookup, if_pos rfl] at h
      exact Option.noConfusion h
  | cons e₁ rest₁ ih =>
    obtain ⟨q₁, m₁⟩ := e₁
    intro l₂ h₁ h₂ hlk
    cases l₂ with
    | nil =>
      have h := hlk q₁
      rw [mapLookup, mapLookup, if_pos rfl] at h
      exact Option.noConfusion h
    | cons e₂ rest₂ =>
      obtain ⟨q₂, m₂⟩ := e₂
      rw [mapKeys_cons, List.sorted_cons] at h₁ h₂
      obtain ⟨hq₁, hrest₁⟩ := h₁
      obtain ⟨hq₂, hrest₂⟩ := h₂
      have hkeq : q₁ = q₂ := by
        by_contra hne
        have k1 : q₁ ∈ mapKeys rest₂ := by
          have h := hlk q₁
          rw [mapLookup, if_pos rfl, mapLookup, if_neg hne] at h
          have hs : (mapLookup q₁ rest₂).isSome := by rw [← h]; rfl
          exact mapLookup_isSome_iff.mp hs
        have k2 : q₂ ∈ mapKeys rest₁ := by
          have h := hlk q₂
          rw [mapLookup, if_neg (fun hc => hne hc.symm), mapLookup,
            if_pos rfl] at h
          have hs : (mapLookup q₂ rest₁).isSome := by rw [h]; rfl
          exact mapLookup_isSome_iff.mp hs
        exact Nat.lt_irrefl q₂ ((hq₂ q₁ k1).trans (hq₁ q₂ k2))
      subst hkeq
      have hveq : m₁ = m₂ := by
        have h := hlk q₁
        rw [mapLookup, if_pos rfl, mapLookup, if_pos rfl] at h
        exact Option.some.inj h
      subst hveq
      have htail : ∀ p, mapLookup p rest₁ = mapLookup p rest₂ := by
        intro p
        by_cases hp : p = q₁
        · subst hp
          have n1 : mapLookup p rest₁ = none :=
            mapLookup_eq_none_iff.mpr (fun hc => Nat.lt_irrefl p (hq₁ p hc))
          have n2 : mapLookup p rest₂ = none :=
            mapLookup_eq_none_iff.mpr (fun hc => Nat.lt_irrefl p (hq₂ p hc))
          rw [n1, n2]
        · have h := hlk p
          rw [mapLookup, if_neg hp, mapLookup, if_neg hp] at h
          exact h
      rw [ih hrest₁ hrest₂ htail]

/-! ## Characterizing one builder step -/

/-- The resolved parent reference of a record outcome: the parent pid when
the record was obtained and its parent field was not denied. -/
def parentRef (info : Res ProcessInfo ProcessInfoError) : Option Pid :=
  match info with
  | .ok i =>
      match i.parent_pid with
      | .ok a => some a
      | .err _ => none
  | .err _ => none

/-- All pids referenced as parents by a batch. -/
def refPids (l : List (Pid × Res ProcessInfo ProcessInfoError)) : List Pid :=
  l.filterMap (fun x => parentRef x.2)

/-- The authoritative record outcome a batch supplies for a pid, if any
(the first one in batch order; unique when the batch has no duplicate
identifiers). -/
def authInfo (l : List (Pid × Res ProcessInfo ProcessInfoError)) (p : Pid) :
    Option (Res ProcessInfo ProcessInfoError) :=
  (l.find? (fun x => x.1 == p)).map Prod.snd

/-- The children list recorded for a pid, empty if the pid has no node. -/
def childListOf (nodes : NodeMap) (p : Pid) : List Pid :=
  ((mapLookup p nodes).map ProcessTreeNode.children).getD []

theorem childListOf_eq_of_lookup {nodes : NodeMap} {p : Pid}
    {node : ProcessTreeNode} (h : mapLookup p nodes = some node) :
    childListOf nodes p = node.children := by
  rw [childListOf, h]
  rfl

theorem childListOf_eq_of_none {nodes : NodeMap} {p : Pid}
    (h : mapLookup p nodes = none) : childListOf nodes p = [] := by
  rw [childListOf, h]
  rfl

theorem mem_refPids {q : Pid} {l : List (Pid × Res ProcessInfo ProcessInfoError)} :
    q ∈ refPids l ↔ ∃ x ∈ l, parentRef x.2 = some q := by
  simp [refPids, List.mem_filterMap]

theorem authInfo_eq_none {p : Pid}
    {l : List (Pid × Res ProcessInfo ProcessInfoError)}
    (h : p ∉ l.map Prod.fst) : authInfo l p = none := by
  induction l with
  | nil => rfl
  | cons x rest ih =>
    simp only [List.map_cons, List.mem_cons] at h
    push_neg at h
    obtain ⟨h1, h2⟩ := h
    have hb : (x.1 == p) = false := by
      simp only [beq_eq_false_iff_ne, ne_eq]
      exact fun hc => h1 hc.symm
    rw [authInfo]
    simp only [List.find?, hb]
    exact ih h2

theorem authInfo_append_ne {q p : Pid}
    {l : List (Pid × Res ProcessInfo ProcessInfoError)}
    {i : Res ProcessInfo ProcessInfoError} (hne : q ≠ p) :
    authInfo (l ++ [(p, i)]) q = authInfo l q := by
  induction l with
  | nil =>
    have hb : (p == q) = false := by
      simp only [beq_eq_false_iff_ne, ne_eq]
      exact fun hc => hne hc.symm
    rw [List.nil_append, authInfo]
    simp only [List.find?, hb]
    rfl
  | cons x rest ih =>
    rcases hb : (x.1 == q) with _ | _
    · rw [List.cons_append, authInfo, authInfo]
      simp only [List.find?, hb]
      rw [authInfo, authInfo] at ih
      exact ih
    · rw [List.cons_append, authInfo, authInfo]
      simp only [List.find?, hb]

theorem authInfo_append_self {p : Pid}
    {l : List (Pid × Res ProcessInfo ProcessInfoError)}
    {i : Res ProcessInfo ProcessInfoError} (h : p ∉ l.map Prod.fst) :
    authInfo (l ++ [(p, i)]) p = some i := by
  induction l with
  | nil =>
    rw [List.nil_append, authInfo]
    simp [List.find?]
  | cons x rest ih =>
    simp only [List.map_cons, List.mem_cons] at h
    push_neg at h
    obtain ⟨h1, h2⟩ := h
    have hb : (x.1 == p) = false := by
      simp only [beq_eq_false_iff_ne, ne_eq]
      exact fun hc => h1 hc.symm
    rw [List.cons_append, authInfo]
    simp only [List.find?, hb]
    rw [authInfo] at ih
    exact ih h2

/-- What one builder-loop iteration for the pair `(p, i)` does to the node
map, described through lookups: `p`'s node now holds `i` and its previous
children; the referenced parent (if any) gained `p` as a child; everything
else is untouched. -/
structure StepSpec (nodes : NodeMap) (p : Pid)
    (i : Res ProcessInfo ProcessInfoError) (nodes' : NodeMap) : Prop where
  keysSorted : List.Sorted (· < ·) (mapKeys nodes')
  childrenSorted : ∀ q node, mapLookup q nodes' = some node →
      List.Sorted (· < ·) node.children
  keysMem : ∀ q, q ∈ mapKeys nodes' ↔
      q = p ∨ parentRef i = some q ∨ q ∈ mapKeys nodes
  infoAt : ∀ q node, mapLookup q nodes' = some node →
      node.process_info = if q = p then i
        else ((mapLookup q nodes).map ProcessTreeNode.process_info).getD
          placeholderInfo
  childrenAt : ∀ q node x, mapLookup q nodes' = some node →
      (x ∈ node.children ↔
        x ∈ childListOf nodes q ∨ (x = p ∧ parentRef i = some q))

theorem childListOf_sorted {nodes : NodeMap}
    (hcs : ∀ q node, mapLookup q nodes = some node →
      List.Sorted (· < ·) node.children)
    (p : Pid) : List.Sorted (· < ·) (childListOf nodes p) := by
  rcases h : mapLookup p nodes with _ | node
  · rw [childListOf_eq_of_none h]
    exact List.sorted_nil
  · rw [childListOf_eq_of_lookup h]
    exact hcs p node h

theorem settleNode_spec {nodes : NodeMap} {p : Pid}
    {i : Res ProcessInfo ProcessInfoError}
    (hph : ∀ node, mapLookup p nodes = some node →
      node.process_info = placeholderInfo) :
    settleNode nodes p i =
      .ok (mapInsert p ⟨i, childListOf nodes p⟩ nodes) := by
  rcases h : mapLookup p nodes with _ | node
  · simp only [settleNode, h, childListOf_eq_of_none h]
  · simp only [settleNode, h, if_pos (hph node h),
      childListOf_eq_of_lookup h]

theorem registerChild_spec {nodes : NodeMap} {pa p : Pid}
    (hnc : ∀ node, mapLookup pa nodes = some node → p ∉ node.children) :
    registerChild nodes pa p = .ok (mapInsert pa
      ⟨((mapLookup pa nodes).map ProcessTreeNode.process_info).getD
        placeholderInfo,
       setInsert p (childListOf nodes pa)⟩ nodes) := by
  rcases h : mapLookup pa nodes with _ | node
  · simp only [registerChild, h, childListOf_eq_of_none h]
    rfl
  · simp only [registerChild, h, if_neg (hnc node h),
      childListOf_eq_of_lookup h]
    rfl

theorem stepSpec_noParent {nodes : NodeMap} {p : Pid}
    {i : Res ProcessInfo ProcessInfoError}
    (hks : List.Sorted (· < ·) (mapKeys nodes))
    (hcs : ∀ q node, mapLookup q nodes = some node →
      List.Sorted (· < ·) node.children)
    (hpr : parentRef i = none) :
    StepSpec nodes p i (mapInsert p ⟨i, childListOf nodes p⟩ nodes) := by
  refine ⟨sorted_mapKeys_mapInsert hks, ?_, ?_, ?_, ?_⟩
  · intro q node hq
    by_cases hqp : q = p
    · subst hqp
      rw [mapLookup_mapInsert_self] at hq
      cases Option.some.inj hq
      exact childListOf_sorted hcs q
    · rw [mapLookup_mapInsert_ne hqp] at hq
      exact hcs q node hq
  · intro q
    rw [mem_mapKeys_mapInsert, hpr]
    simp
  · intro q node hq
    by_cases hqp : q = p
    · subst hqp
      rw [mapLookup_mapInsert_self] at hq
      cases Option.some.inj hq
      rw [if_pos rfl]
    · rw [mapLookup_mapInsert_ne hqp] at hq
      rw [if_neg hqp, hq]
      rfl
  · intro q node x hq
    by_cases hqp : q = p
    · subst hqp
      rw [mapLookup_mapInsert_self] at hq
      cases Option.some.inj hq
      rw [hpr]
      simp
    · rw [mapLookup_mapInsert_ne hqp] at hq
      rw [hpr, childListOf_eq_of_lookup hq]
      simp

theorem stepSpec_withParent {nodes : NodeMap} {p : Pid} (pa : Pid)
    {i : Res ProcessInfo ProcessInfoError}
    (hks : List.Sorted (· < ·) (mapKeys nodes))
    (hcs : ∀ q node, mapLookup q nodes = some node →
      List.Sorted (· < ·) node.children)
    (hpr : parentRef i = some pa) :
    StepSpec nodes p i
      (mapInsert p
        ⟨i, childListOf
          (mapInsert pa
            ⟨((mapLookup pa nodes).map ProcessTreeNode.process_info).getD
              placeholderInfo,
             setInsert p (childListOf nodes pa)⟩ nodes) p⟩
        (mapInsert pa
          ⟨((mapLookup pa nodes).map ProcessTreeNode.process_info).getD
            placeholderInfo,
           setInsert p (childListOf nodes pa)⟩ nodes)) := by
  by_cases hppa : p = pa
  · subst hppa
    have hch : childListOf
        (mapInsert p
          ⟨((mapLookup p nodes).map ProcessTreeNode.process_info).getD
            placeholderInfo,
           setInsert p (childListOf nodes p)⟩ nodes) p =
        setInsert p (childListOf nodes p) :=
      childListOf_eq_of_lookup (mapLookup_mapInsert_self _ _ _)
    rw [hch]
    refine ⟨sorted_mapKeys_mapInsert (sorted_mapKeys_mapInsert hks),
      ?_, ?_, ?_, ?_⟩
    · intro q node hq
      by_cases hqp : q = p
      · subst hqp
        rw [mapLookup_mapInsert_self] at hq
        cases Option.some.inj hq
        exact sorted_setInsert (childListOf_sorted hcs q)
      · rw [mapLookup_mapInsert_ne hqp, mapLookup_mapInsert_ne hqp] at hq
        exact hcs q node hq
    · intro q
      rw [mem_mapKeys_mapInsert, mem_mapKeys_mapInsert, hpr]
      constructor
      · intro h
        rcases h with h | h | h
        · exact Or.inl h
        · exact Or.inl h
        · exact Or.inr (Or.inr h)
      · intro h
        rcases h with h | h | h
        · exact Or.inl h
        · exact Or.inl (Option.some.inj h).symm
        · exact Or.inr (Or.inr h)
    · intro q node hq
      by_cases hqp : q = p
      · subst hqp
        rw [mapLookup_mapInsert_self] at hq
        cases Option.some.inj hq
        rw [if_pos rfl]
      · rw [mapLookup_mapInsert_ne hqp, mapLookup_mapInsert_ne hqp] at hq
        rw [if_neg hqp, hq]
        rfl
    · intro q node x hq
      by_cases hqp : q = p
      · subst hqp
        rw [mapLookup_mapInsert_self] at hq
        cases Option.some.inj hq
        rw [hpr]
        show x ∈ setInsert q (childListOf nodes q) ↔ _
        rw [mem_setInsert]
        simp only [Option.some.injEq]
        constructor
        · intro h
          rcases h with h | h
          · exact Or.inr ⟨h, trivial⟩
          · exact Or.inl h
        · intro h
          rcases h with h | ⟨h, _⟩
          · exact Or.inr h
          · exact Or.inl h
      · rw [mapLookup_mapInsert_ne hqp, mapLookup_mapInsert_ne hqp] at hq
        rw [hpr, childListOf_eq_of_lookup hq]
        simp only [Option.some.injEq]
        constructor
        · intro h
          exact Or.inl h
        · intro h
          rcases h with h | ⟨_, h⟩
          · exact h
          · exact absurd h.symm hqp
  · have hch : childListOf
        (mapInsert pa
          ⟨((mapLookup pa nodes).map ProcessTreeNode.process_info).getD
            placeholderInfo,
           setInsert p (childListOf nodes pa)⟩ nodes) p =
        childListOf nodes p := by
      rw [childListOf, mapLookup_mapInsert_ne hppa, childListOf]
    rw [hch]
    refine ⟨sorted_mapKeys_mapInsert (sorted_mapKeys_mapInsert hks),
      ?_, ?_, ?_, ?_⟩
    · intro q node hq
      by_cases hqp : q = p
      · subst hqp
        rw [mapLookup_mapInsert_self] at hq
        cases Option.some.inj hq
        exact childListOf_sorted hcs q
      · rw [mapLookup_mapInsert_ne hqp] at hq
        by_cases hqpa : q = pa
        · subst hqpa
          rw [mapLookup_mapInsert_self] at hq
          cases Option.some.inj hq
          exact sorted_setInsert (childListOf_sorted hcs q)
        · rw [mapLookup_mapInsert_ne hqpa] at hq
          exact hcs q node hq
    · intro q
      rw [mem_mapKeys_mapInsert, mem_mapKeys_mapInsert, hpr]
      constructor
      · intro h
        rcases h with h | h | h
        · exact Or.inl h
        · exact Or.inr (Or.inl (by rw [h]))
        · exact Or.inr (Or.inr h)
      · intro h
        rcases h with h | h | h
        · exact Or.inl h
        · exact Or.inr (Or.inl (Option.some.inj h).symm)
        · exact Or.inr (Or.inr h)
    · intro q node hq
      by_cases hqp : q = p
      · subst hqp
        rw [mapLookup_mapInsert_self] at hq
        cases Option.some.inj hq
        rw [if_pos rfl]
      · rw [mapLookup_mapInsert_ne hqp] at hq
        rw [if_neg hqp]
        by_cases hqpa : q = pa
        · subst hqpa
          rw [mapLookup_mapInsert_self] at hq
          cases Option.some.inj hq
          rfl
        · rw [mapLookup_mapInsert_ne hqpa] at hq
          rw [hq]
          rfl
    · intro q node x hq
      by_cases hqp : q = p
      · subst hqp
        rw [mapLookup_mapInsert_self] at hq
        cases Option.some.inj hq
        rw [hpr]
        simp only [Option.some.injEq]
        constructor
        · intro h
          exact Or.inl h
        · intro h
          rcases h with h | ⟨_, h⟩
          · exact h
          · exact absurd h (fun hc => hppa hc.symm)
      · rw [mapLookup_mapInsert_ne hqp] at hq
        by_cases hqpa : q = pa
        · subst hqpa
          rw [mapLookup_mapInsert_self] at hq
          cases Option.some.inj hq
          rw [hpr]
          show x ∈ setInsert p (childListOf nodes q) ↔ _
          rw [mem_setInsert]
          simp only [Option.some.injEq]
          constructor
          · intro h
            rcases h with h | h
            · exact Or.inr ⟨h, trivial⟩
            · exact Or.inl h
          · intro h
            rcases h with h | ⟨h, _⟩
            · exact Or.inr h
            · exact Or.inl h
        · rw [mapLookup_mapInsert_ne hqpa] at hq
          rw [hpr, childListOf_eq_of_lookup hq]
          simp only [Option.some.injEq]
          constructor
          · intro h
            exact Or.inl h
          · intro h
            rcases h with h | ⟨_, h⟩
            · exact h
            · exact absurd h (fun hc => hqpa hc.symm)

theorem applyPair_spec {nodes : NodeMap} {p : Pid}
    (i : Res ProcessInfo ProcessInfoError)
    (hks : List.Sorted (· < ·) (mapKeys nodes))
    (hcs : ∀ q node, mapLookup q nodes = some node →
      List.Sorted (· < ·) node.children)
    (hph : ∀ node, mapLookup p nodes = some node →
      node.process_info = placeholderInfo)
    (hnc : ∀ q node, mapLookup q nodes = some node → p ∉ node.children) :
    ∃ nodes', applyPair nodes (p, i) = .ok nodes' ∧
      StepSpec nodes p i nodes' := by
  rcases i with info | e
  · rcases hpp : info.parent_pid with pa | fe
    · have hph1 : ∀ node, mapLookup p
          (mapInsert pa
            ⟨((mapLookup pa nodes).map ProcessTreeNode.process_info).getD
              placeholderInfo,
             setInsert p (childListOf nodes pa)⟩ nodes) = some node →
          node.process_info = placeholderInfo := by
        intro node hnode
        by_cases hppa : p = pa
        · subst hppa
          rw [mapLookup_mapInsert_self] at hnode
          cases Option.some.inj hnode
          rcases hl : mapLookup p nodes with _ | old
          · rfl
          · show ((Option.map ProcessTreeNode.process_info (some old)).getD
              placeholderInfo) = placeholderInfo
            exact hph old hl
        · rw [mapLookup_mapInsert_ne hppa] at hnode
          exact hph node hnode
      refine ⟨_, ?_, stepSpec_withParent pa hks hcs
        (by simp [parentRef, hpp])⟩
      simp only [applyPair, hpp]
      rw [registerChild_spec (fun node h => hnc pa node h)]
      exact settleNode_spec hph1
    · refine ⟨_, ?_, stepSpec_noParent hks hcs (by simp [parentRef, hpp])⟩
      simp only [applyPair, hpp]
      exact settleNode_spec hph
  · refine ⟨_, ?_, stepSpec_noParent hks hcs (by simp [parentRef])⟩
    exact settleNode_spec hph

/-! ## The builder invariant -/

/-- Full characterization of the node map built from a prefix of the
batch: which nodes exist, which outcome each carries, which children each
holds, and the representation invariants of the embedding. -/
structure BuildChar (l : List (Pid × Res ProcessInfo ProcessInfoError))
    (nodes : NodeMap) : Prop where
  keysSorted : List.Sorted (· < ·) (mapKeys nodes)
  childrenSorted : ∀ p node, mapLookup p nodes = some node →
      List.Sorted (· < ·) node.children
  keysMem : ∀ p, p ∈ mapKeys nodes ↔ p ∈ l.map Prod.fst ∨ p ∈ refPids l
  infoChar : ∀ p node, mapLookup p nodes = some node →
      node.process_info = (authInfo l p).getD placeholderInfo
  childChar : ∀ p node x, mapLookup p nodes = some node →
      (x ∈ node.children ↔ ∃ j, (x, j) ∈ l ∧ parentRef j = some p)

theorem buildChar_nil : BuildChar [] [] := by
  refine ⟨List.sorted_nil, ?_, ?_, ?_, ?_⟩
  · intro p node h
    exact Option.noConfusion h
  · intro p
    simp [mapKeys, refPids]
  · intro p node h
    exact Option.noConfusion h
  · intro p node x h
    exact Option.noConfusion h

theorem mem_refPids_append {q p : Pid}
    {l : List (Pid × Res ProcessInfo ProcessInfoError)}
    {i : Res ProcessInfo ProcessInfoError} :
    q ∈ refPids (l ++ [(p, i)]) ↔ q ∈ refPids l ∨ parentRef i = some q := by
  simp [refPids, List.filterMap_append]

theorem buildChar_append {l₀ : List (Pid × Res ProcessInfo ProcessInfoError)}
    {nodes nodes' : NodeMap} {p : Pid} {i : Res ProcessInfo ProcessInfoError}
    (hbc : BuildChar l₀ nodes) (hp : p ∉ l₀.map Prod.fst)
    (hss : StepSpec nodes p i nodes') :
    BuildChar (l₀ ++ [(p, i)]) nodes' := by
  refine ⟨hss.keysSorted, hss.childrenSorted, ?_, ?_, ?_⟩
  · intro q
    rw [hss.keysMem q, hbc.keysMem q]
    rw [List.map_append, List.mem_append, mem_refPids_append]
    simp only [List.map_cons, List.map_nil, List.mem_singleton]
    tauto
  · intro q node hq
    have := hss.infoAt q node hq
    by_cases hqp : q = p
    · subst hqp
      rw [if_pos rfl] at this
      rw [this, authInfo_append_self hp]
      rfl
    · rw [if_neg hqp] at this
      rw [authInfo_append_ne hqp]
      rcases hl : mapLookup q nodes with _ | old
      · rw [hl] at this
        have hnk : q ∉ mapKeys nodes := mapLookup_eq_none_iff.mp hl
        rw [hbc.keysMem q] at hnk
        push_neg at hnk
        rw [authInfo_eq_none hnk.1, this]
        rfl
      · rw [hl] at this
        rw [this]
        show old.process_info = _
        exact hbc.infoChar q old hl
  · intro q node x hq
    rw [hss.childrenAt q node x hq]
    have hr : (∃ j, (x, j) ∈ l₀ ++ [(p, i)] ∧ parentRef j = some q) ↔
        (∃ j, (x, j) ∈ l₀ ∧ parentRef j = some q) ∨
          (x = p ∧ parentRef i = some q) := by
      constructor
      · rintro ⟨j, hj, hjr⟩
        rcases List.mem_append.mp hj with hj | hj
        · exact Or.inl ⟨j, hj, hjr⟩
        · rw [List.mem_singleton] at hj
          cases hj
          exact Or.inr ⟨rfl, hjr⟩
      · rintro (⟨j, hj, hjr⟩ | ⟨hx, hir⟩)
        · exact ⟨j, List.mem_append.mpr (Or.inl hj), hjr⟩
        · subst hx
          exact ⟨i, List.mem_append.mpr (Or.inr (List.mem_singleton.mpr rfl)),
            hir⟩
    rw [hr]
    rcases hl : mapLookup q nodes with _ | old
    · rw [childListOf_eq_of_none hl]
      have hnk : q ∉ mapKeys nodes := mapLookup_eq_none_iff.mp hl
      rw [hbc.keysMem q] at hnk
      push_neg at hnk
      simp only [List.not_mem_nil, false_or]
      constructor
      · intro h
        exact Or.inr h
      · intro h
        rcases h with ⟨j, hj, hjr⟩ | h
        · exact absurd (mem_refPids.mpr ⟨(x, j), hj, hjr⟩) hnk.2
        · exact h
    · rw [childListOf_eq_of_lookup hl, hbc.childChar q old x hl]

theorem foldlM_char :
    ∀ (l l₀ : List (Pid × Res ProcessInfo ProcessInfoError))
      (nodes : NodeMap),
    BuildChar l₀ nodes → ((l₀ ++ l).map Prod.fst).Nodup →
    ∃ nodes', l.foldlM applyPair nodes = .ok nodes' ∧
      BuildChar (l₀ ++ l) nodes' := by
  intro l
  induction l with
  | nil =>
    intro l₀ nodes hbc _
    refine ⟨nodes, rfl, ?_⟩
    rw [List.append_nil]
    exact hbc
  | cons x l ih =>
    obtain ⟨p, i⟩ := x
    intro l₀ nodes hbc hnd
    have hp : p ∉ l₀.map Prod.fst := by
      rw [List.map_append] at hnd
      rcases List.nodup_append.mp hnd with ⟨_, _, hdisj⟩
      intro hc
      exact hdisj hc (by simp)
    have hph : ∀ node, mapLookup p nodes = some node →
        node.process_info = placeholderInfo := by
      intro node h
      have := hbc.infoChar p node h
      rw [authInfo_eq_none hp] at this
      exact this
    have hnc : ∀ q node, mapLookup q nodes = some node →
        p ∉ node.children := by
      intro q node h hc
      rcases (hbc.childChar q node p h).mp hc with ⟨j, hj, _⟩
      exact hp (List.mem_map.mpr ⟨(p, j), hj, rfl⟩)
    obtain ⟨nodes₁, happ, hss⟩ :=
      applyPair_spec i hbc.keysSorted hbc.childrenSorted hph hnc
    have hbc₁ : BuildChar (l₀ ++ [(p, i)]) nodes₁ :=
      buildChar_append hbc hp hss
    have hnd₁ : (((l₀ ++ [(p, i)]) ++ l).map Prod.fst).Nodup := by
      rw [List.append_assoc, List.singleton_append]
      exact hnd
    obtain ⟨nodes', hfold, hbc'⟩ := ih (l₀ ++ [(p, i)]) nodes₁ hbc₁ hnd₁
    refine ⟨nodes', ?_, ?_⟩
    · rw [List.foldlM_cons, happ]
      exact hfold
    · rw [List.append_assoc, List.singleton_append] at hbc'
      exact hbc'

/-- On a batch with no duplicate identifiers, the tree builder always
succeeds, and the resulting node map is fully characterized by
`BuildChar` while the root set is `computeRoots` of that map. -/
theorem processTreeFrom_ok
    {l : List (Pid × Res ProcessInfo ProcessInfoError)}
    (hnd : (l.map Prod.fst).Nodup) :
    ∃ nodes', processTreeFrom l = .ok ⟨computeRoots nodes', nodes'⟩ ∧
      BuildChar l nodes' := by
  obtain ⟨nodes', hfold, hbc⟩ := foldlM_char l [] [] buildChar_nil
    (by rw [List.nil_append]; exact hnd)
  rw [List.nil_append] at hbc
  refine ⟨nodes', ?_, hbc⟩
  rw [processTreeFrom, hfold]
  rfl

/-! ## Characterizing the root set -/

theorem mapLookup_eq_some_iff_mem {nodes : NodeMap}
    (hks : List.Sorted (· < ·) (mapKeys nodes)) {q : Pid}
    {n : ProcessTreeNode} :
    mapLookup q nodes = some n ↔ (q, n) ∈ nodes := by
  induction nodes with
  | nil => simp [mapLookup]
  | cons e rest ih =>
    obtain ⟨q₀, n₀⟩ := e
    rw [mapKeys_cons, List.sorted_cons] at hks
    obtain ⟨hq₀, hrest⟩ := hks
    by_cases hq : q = q₀
    · subst hq
      rw [mapLookup, if_pos rfl]
      constructor
      · intro h
        cases Option.some.inj h
        exact List.mem_cons_self _ _
      · intro h
        rcases List.mem_cons.mp h with h | h
        · cases h
          rfl
        · exact absurd (hq₀ q (List.mem_map.mpr ⟨(q, n), h, rfl⟩))
            (Nat.lt_irrefl q)
    · rw [mapLookup, if_neg hq, ih hrest]
      constructor
      · intro h
        exact List.mem_cons_of_mem _ h
      · intro h
        rcases List.mem_cons.mp h with h | h
        · cases h
          exact absurd rfl hq
        · exact h

theorem mem_computeRoots {nodes : NodeMap} {q : Pid} :
    q ∈ computeRoots nodes ↔
      ∃ n, (q, n) ∈ nodes ∧ isRootInfo n.process_info = true := by
  rw [computeRoots]
  constructor
  · intro h
    rcases List.mem_map.mp h with ⟨⟨q', n⟩, he, rfl⟩
    rcases List.mem_filter.mp he with ⟨hmem, hf⟩
    exact ⟨n, hmem, hf⟩
  · rintro ⟨n, hmem, hf⟩
    exact List.mem_map.mpr ⟨(q, n), List.mem_filter.mpr ⟨hmem, hf⟩, rfl⟩

theorem computeRoots_sorted {nodes : NodeMap}
    (hks : List.Sorted (· < ·) (mapKeys nodes)) :
    List.Sorted (· < ·) (computeRoots nodes) :=
  List.Pairwise.sublist
    (List.Sublist.map Prod.fst (List.filter_sublist nodes)) hks

theorem processTreeFrom_roots
    {l : List (Pid × Res ProcessInfo ProcessInfoError)} {t : ProcessTree}
    (h : processTreeFrom l = .ok t) : t.roots = computeRoots t.nodes := by
  rw [processTreeFrom] at h
  rcases hf : List.foldlM applyPair [] l with e | nodes'
  · rw [hf] at h
    exact Except.noConfusion h
  · rw [hf] at h
    cases Except.ok.inj h
    rfl

/-! ## The parent-pointer view of a built tree -/

/-- The resolved parent of a node, read back from the tree. -/
def parOf (t : ProcessTree) (p : Pid) : Option Pid :=
  match mapLookup p t.nodes with
  | some node => parentRef node.process_info
  | none => none

/-- Iterated parent resolution: the k-th ancestor of a pid, `none` when
the parent chain dies out earlier. -/
def ancIter (t : ProcessTree) : Nat → Pid → Option Pid
  | 0, p => some p
  | k + 1, p =>
    match parOf t p with
    | some a => ancIter t k a
    | none => none

theorem ancIter_add (t : ProcessTree) (j k : Nat) (p : Pid) :
    ancIter t (j + k) p = (ancIter t j p).bind (ancIter t k) := by
  induction j generalizing p with
  | zero =>
    rw [Nat.zero_add]
    rfl
  | succ j ih =>
    rw [Nat.succ_add, ancIter, ancIter]
    rcases h : parOf t p with _ | a
    · rfl
    · exact ih a

theorem ancIter_one (t : ProcessTree) (p : Pid) :
    ancIter t 1 p = parOf t p := by
  rw [ancIter]
  rcases h : parOf t p with _ | a
  · rfl
  · rfl

/-- The parent chain from `p` dies out after finitely many steps (true of
every node reachable from a root; false exactly on parent cycles). -/
def Terminates (t : ProcessTree) (p : Pid) : Prop :=
  ∃ m, ancIter t m p = none

theorem terminates_of_parOf_none {t : ProcessTree} {p : Pid}
    (h : parOf t p = none) : Terminates t p :=
  ⟨1, by rw [ancIter, h]⟩

theorem terminates_child {t : ProcessTree} {c p : Pid}
    (hc : parOf t c = some p) (hp : Terminates t p) : Terminates t c := by
  obtain ⟨m, hm⟩ := hp
  exact ⟨m + 1, by rw [Nat.add_comm, ancIter_add, ancIter_one, hc]; exact hm⟩

theorem ancIter_none_absorb {t : ProcessTree} {p : Pid} {m : Nat}
    (h : ancIter t m p = none) (d : Nat) : ancIter t (m + d) p = none := by
  rw [ancIter_add, h]
  rfl

theorem no_cycle {t : ProcessTree} {p : Pid} (hp : Terminates t p) :
    ∀ k, ancIter t (k + 1) p ≠ some p := by
  intro k hcyc
  obtain ⟨m, hm⟩ := hp
  have hmul : ∀ n, ancIter t (n * (k + 1)) p = some p := by
    intro n
    induction n with
    | zero =>
      rw [Nat.zero_mul]
      rfl
    | succ n ih =>
      rw [Nat.succ_mul, ancIter_add, ih]
      exact hcyc
  have hge : m ≤ m * (k + 1) := Nat.le_mul_of_pos_right m (Nat.succ_pos k)
  obtain ⟨d, hd⟩ := Nat.le.dest hge
  have := hmul m
  rw [← hd, ancIter_none_absorb hm d] at this
  exact Option.noConfusion this

theorem authInfo_mem {l : List (Pid × Res ProcessInfo ProcessInfoError)}
    {p : Pid} {j : Res ProcessInfo ProcessInfoError}
    (h : authInfo l p = some j) : (p, j) ∈ l := by
  rw [authInfo] at h
  rcases hf : l.find? (fun x => x.1 == p) with _ | x
  · rw [hf] at h
    exact Option.noConfusion h
  · rw [hf] at h
    have hj : x.2 = j := Option.some.inj h
    have hx := List.mem_of_find?_eq_some hf
    have hxp : x.1 = p := by
      have := List.find?_some hf
      simpa using this
    have hxe : x = (p, j) := by
      rw [← hxp, ← hj]
    rw [← hxe]
    exact hx

theorem authInfo_of_mem {l : List (Pid × Res ProcessInfo ProcessInfoError)}
    (hnd : (l.map Prod.fst).Nodup) {p : Pid}
    {j : Res ProcessInfo ProcessInfoError} (h : (p, j) ∈ l) :
    authInfo l p = some j := by
  induction l with
  | nil => cases h
  | cons x rest ih =>
    rw [List.map_cons, List.nodup_cons] at hnd
    obtain ⟨hx1, hrest⟩ := hnd
    rcases List.mem_cons.mp h with h | h
    · cases h
      rw [authInfo]
      have hb : ((p, j).1 == p) = true := by simp
      simp only [List.find?, hb]
      rfl
    · have hppr : p ∈ rest.map Prod.fst := List.mem_map.mpr ⟨(p, j), h, rfl⟩
      have hb : (x.1 == p) = false := by
        simp only [beq_eq_false_iff_ne, ne_eq]
        intro hc
        rw [hc] at hx1
        exact hx1 hppr
      rw [authInfo]
      simp only [List.find?, hb]
      rw [authInfo] at ih
      exact ih hrest h

theorem isRootInfo_eq_true_iff {i : Res ProcessInfo ProcessInfoError} :
    isRootInfo i = true ↔ parentRef i = none := by
  rcases i with info | e
  · rcases h : info.parent_pid with a | fe
    · simp [isRootInfo, parentRef, h]
    · simp [isRootInfo, parentRef, h]
  · simp [isRootInfo, parentRef]

theorem parOf_eq_of_lookup (t : ProcessTree) {p : Pid}
    {node : ProcessTreeNode} (h : mapLookup p t.nodes = some node) :
    parOf t p = parentRef node.process_info := by
  simp only [parOf, h]

theorem parOf_eq_none_of_lookup_none (t : ProcessTree) {p : Pid}
    (h : mapLookup p t.nodes = none) : parOf t p = none := by
  simp only [parOf, h]

theorem parOf_mem_keys {t : ProcessTree} {p a : Pid}
    (h : parOf t p = some a) : p ∈ mapKeys t.nodes := by
  rcases hl : mapLookup p t.nodes with _ | node
  · rw [parOf_eq_none_of_lookup_none t hl] at h
    exact Option.noConfusion h
  · exact mapLookup_isSome_iff.mp (by rw [hl]; rfl)

/-- The structural invariants of a successfully built tree that the
traversal proofs rely on, phrased through the parent-pointer view. -/
structure TreeInv (t : ProcessTree) : Prop where
  keysSorted : List.Sorted (· < ·) (mapKeys t.nodes)
  childrenSorted : ∀ p node, mapLookup p t.nodes = some node →
      List.Sorted (· < ·) node.children
  rootsSorted : List.Sorted (· < ·) t.roots
  rootsChar : ∀ p, p ∈ t.roots ↔ p ∈ mapKeys t.nodes ∧ parOf t p = none
  childIff : ∀ p node c, mapLookup p t.nodes = some node →
      (c ∈ node.children ↔ parOf t c = some p)
  parKeys : ∀ p a, parOf t p = some a → a ∈ mapKeys t.nodes

theorem treeInv_of_build
    {l : List (Pid × Res ProcessInfo ProcessInfoError)}
    (hnd : (l.map Prod.fst).Nodup) {nodes : NodeMap}
    (hbc : BuildChar l nodes) :
    TreeInv ⟨computeRoots nodes, nodes⟩ := by
  have hparOf : ∀ p j, (p, j) ∈ l →
      parOf ⟨computeRoots nodes, nodes⟩ p = parentRef j := by
    intro p j hj
    have hk : p ∈ mapKeys nodes := by
      rw [hbc.keysMem]
      exact Or.inl (List.mem_map.mpr ⟨(p, j), hj, rfl⟩)
    rcases hl : mapLookup p nodes with _ | n
    · exact absurd (mapLookup_isSome_iff.mpr hk) (by rw [hl]; simp)
    · have hinfo := hbc.infoChar p n hl
      rw [authInfo_of_mem hnd hj, Option.getD_some] at hinfo
      rw [parOf_eq_of_lookup ⟨computeRoots nodes, nodes⟩ hl, hinfo]
  have hparOfSome : ∀ p a,
      parOf ⟨computeRoots nodes, nodes⟩ p = some a →
      ∃ j, (p, j) ∈ l ∧ parentRef j = some a := by
    intro p a hpar
    rcases hl : mapLookup p nodes with _ | n
    · rw [parOf_eq_none_of_lookup_none
        (t := ⟨computeRoots nodes, nodes⟩) hl] at hpar
      exact Option.noConfusion hpar
    · rw [parOf_eq_of_lookup ⟨computeRoots nodes, nodes⟩ hl] at hpar
      have hinfo := hbc.infoChar p n hl
      rcases ha : authInfo l p with _ | j
      · rw [ha, Option.getD_none] at hinfo
        rw [hinfo] at hpar
        exact Option.noConfusion hpar
      · rw [ha, Option.getD_some] at hinfo
        rw [hinfo] at hpar
        exact ⟨j, authInfo_mem ha, hpar⟩
  refine ⟨hbc.keysSorted, hbc.childrenSorted, ?_, ?_, ?_, ?_⟩
  · exact computeRoots_sorted hbc.keysSorted
  · intro p
    show p ∈ computeRoots nodes ↔ _
    rw [mem_computeRoots]
    constructor
    · rintro ⟨n, hmem, hroot⟩
      have hl : mapLookup p nodes = some n :=
        (mapLookup_eq_some_iff_mem hbc.keysSorted).mpr hmem
      refine ⟨mapLookup_isSome_iff.mp (by rw [hl]; rfl), ?_⟩
      rw [parOf_eq_of_lookup ⟨computeRoots nodes, nodes⟩ hl]
      exact isRootInfo_eq_true_iff.mp hroot
    · rintro ⟨hk, hpar⟩
      rcases hl : mapLookup p nodes with _ | n
      · exact absurd (mapLookup_isSome_iff.mpr hk) (by rw [hl]; simp)
      · refine ⟨n, (mapLookup_eq_some_iff_mem hbc.keysSorted).mp hl, ?_⟩
        rw [isRootInfo_eq_true_iff]
        rw [parOf_eq_of_lookup ⟨computeRoots nodes, nodes⟩ hl] at hpar
        exact hpar
  · intro p node c hl
    rw [hbc.childChar p node c hl]
    constructor
    · rintro ⟨j, hj, hjr⟩
      rw [hparOf c j hj]
      exact hjr
    · intro hpar
      exact hparOfSome c p hpar
  · intro p a hpar
    rcases hparOfSome p a hpar with ⟨j, hj, hjr⟩
    show a ∈ mapKeys nodes
    rw [hbc.keysMem]
    exact Or.inr (mem_refPids.mpr ⟨(p, j), hj, hjr⟩)

/-! ## Counting reporter events -/

theorem nodeEvent_pid (p : Pid) (i : Res ProcessInfo ProcessInfoError) :
    (nodeEvent p i).pid = p := by
  rcases i with info | e
  · rfl
  · rcases e with _ | _ | _ <;> rfl

/-- Number of events a report emits for a given pid. -/
def pidCount (evs : List LogEvent) (q : Pid) : Nat :=
  evs.countP (fun e => e.pid == q)

/-- Whether iterating the parent pointer from `q` hits `p` in fewer than
`fuel` steps. -/
def reachesWithin (t : ProcessTree) (fuel : Nat) (q p : Pid) : Bool :=
  (List.range fuel).any (fun k => ancIter t k q == some p)

theorem reachesWithin_iff {t : ProcessTree} {fuel : Nat} {q p : Pid} :
    reachesWithin t fuel q p = true ↔
      ∃ k, k < fuel ∧ ancIter t k q = some p := by
  simp [reachesWithin, List.any_eq_true, List.mem_range]

theorem sorted_lt_nodup {l : List Pid} (h : List.Sorted (· < ·) l) :
    l.Nodup :=
  h.imp Nat.ne_of_lt

theorem sum_indicator_unique {cs : List Pid} (P : Pid → Prop)
    [DecidablePred P] (g : Pid → Nat)
    (hg : ∀ c ∈ cs, g c = if P c then 1 else 0)
    (huniq : ∀ c₁ ∈ cs, ∀ c₂ ∈ cs, P c₁ → P c₂ → c₁ = c₂)
    (hnd : cs.Nodup) :
    (cs.map g).sum = if ∃ c ∈ cs, P c then 1 else 0 := by
  induction cs with
  | nil => simp
  | cons c cs ih =>
    rw [List.nodup_cons] at hnd
    obtain ⟨hc, hnd⟩ := hnd
    rw [List.map_cons, List.sum_cons]
    by_cases hPc : P c
    · rw [hg c (List.mem_cons_self c cs), if_pos hPc]
      have hz : (cs.map g).sum = 0 := by
        apply List.sum_eq_zero
        intro x hx
        rcases List.mem_map.mp hx with ⟨c', hc', rfl⟩
        rw [hg c' (List.mem_cons_of_mem c hc'), if_neg]
        intro hPc'
        exact hc ((huniq c' (List.mem_cons_of_mem c hc') c
          (List.mem_cons_self c cs) hPc' hPc) ▸ hc')
      rw [hz, if_pos ⟨c, List.mem_cons_self c cs, hPc⟩]
    · rw [hg c (List.mem_cons_self c cs), if_neg hPc, Nat.zero_add]
      rw [ih (fun c' h => hg c' (List.mem_cons_of_mem c h))
        (fun c₁ h₁ c₂ h₂ => huniq c₁ (List.mem_cons_of_mem c h₁) c₂
          (List.mem_cons_of_mem c h₂)) hnd]
      by_cases hex : ∃ x ∈ cs, P x
      · rw [if_pos hex, if_pos (by
          rcases hex with ⟨x, hx, hPx⟩
          exact ⟨x, List.mem_cons_of_mem c hx, hPx⟩)]
      · rw [if_neg hex, if_neg]
        rintro ⟨x, hx, hPx⟩
        rcases List.mem_cons.mp hx with rfl | hx
        · exact hPc hPx
        · exact hex ⟨x, hx, hPx⟩

theorem logSubtree_count {t : ProcessTree} (hinv : TreeInv t) :
    ∀ (fuel : Nat) (p : Pid), p ∈ mapKeys t.nodes → Terminates t p →
    ∀ q, pidCount (logSubtree t fuel p) q =
      if q ∈ mapKeys t.nodes ∧ reachesWithin t fuel q p = true then 1
      else 0 := by
  intro fuel
  induction fuel with
  | zero =>
    intro p hp hterm q
    rw [if_neg]
    · rfl
    · rintro ⟨_, hrw⟩
      rcases reachesWithin_iff.mp hrw with ⟨k, hk, _⟩
      exact Nat.not_lt_zero k hk
  | succ fuel ih =>
    intro p hp hterm q
    obtain ⟨node, hnode⟩ : ∃ node, mapLookup p t.nodes = some node := by
      rcases h : mapLookup p t.nodes with _ | node
      · exact absurd (mapLookup_isSome_iff.mpr hp) (by rw [h]; simp)
      · exact ⟨node, rfl⟩
    have hchild : ∀ c ∈ node.children, parOf t c = some p := fun c hc =>
      (hinv.childIff p node c hnode).mp hc
    have hchildkeys : ∀ c ∈ node.children, c ∈ mapKeys t.nodes :=
      fun c hc => parOf_mem_keys (hchild c hc)
    have hchildterm : ∀ c ∈ node.children, Terminates t c := fun c hc =>
      terminates_child (hchild c hc) hterm
    have hchildnd : node.children.Nodup :=
      sorted_lt_nodup (hinv.childrenSorted p node hnode)
    rw [show logSubtree t (fuel + 1) p =
        nodeEvent p node.process_info ::
          (node.children.map (fun c => logSubtree t fuel c)).flatten from by
      simp only [logSubtree, hnode]]
    rw [pidCount, List.countP_cons, List.countP_flatten, List.map_map]
    have hterms : ∀ c ∈ node.children,
        (fun c => pidCount (logSubtree t fuel c) q) c =
          if q ∈ mapKeys t.nodes ∧ reachesWithin t fuel q c = true then 1
          else 0 := by
      intro c hc
      exact ih c (hchildkeys c hc) (hchildterm c hc) q
    have huniq : ∀ c₁ ∈ node.children, ∀ c₂ ∈ node.children,
        (q ∈ mapKeys t.nodes ∧ reachesWithin t fuel q c₁ = true) →
        (q ∈ mapKeys t.nodes ∧ reachesWithin t fuel q c₂ = true) →
        c₁ = c₂ := by
      rintro c₁ h₁ c₂ h₂ ⟨_, hr₁⟩ ⟨_, hr₂⟩
      rcases reachesWithin_iff.mp hr₁ with ⟨k₁, hk₁, ha₁⟩
      rcases reachesWithin_iff.mp hr₂ with ⟨k₂, hk₂, ha₂⟩
      by_contra hne
      have key : ∀ {ka kb : Nat} {ca cb : Pid}, ka < kb →
          ancIter t ka q = some ca → ancIter t kb q = some cb →
          parOf t ca = some p → parOf t cb = some p → False := by
        intro ka kb ca cb hlt haa hab hpa hpb
        obtain ⟨d, hd⟩ := Nat.le.dest hlt
        have h1 : ancIter t (ka + (d + 1)) q = some cb := by
          have he : ka + (d + 1) = kb := by omega
          rw [he]
          exact hab
        rw [ancIter_add, haa] at h1
        have h1x : ancIter t (d + 1) ca = some cb := h1
        have h2 : ancIter t ((d + 1) + 1) ca = some p := by
          rw [ancIter_add, h1x]
          show ancIter t 1 cb = some p
          rw [ancIter_one]
          exact hpb
        have h4 : ancIter t (d + 1) p = some p := by
          have h3 : ancIter t (1 + (d + 1)) ca = some p := by
            rw [Nat.add_comm]
            exact h2
          rw [ancIter_add, ancIter_one, hpa] at h3
          exact h3
        exact no_cycle hterm d h4
      rcases Nat.lt_trichotomy k₁ k₂ with hlt | heq | hgt
      · exact key hlt ha₁ ha₂ (hchild c₁ h₁) (hchild c₂ h₂)
      · rw [heq, ha₂] at ha₁
        exact hne (Option.some.inj ha₁).symm
      · exact key hgt ha₂ ha₁ (hchild c₂ h₂) (hchild c₁ h₁)
    have hflat : (List.map
        (List.countP (fun e => e.pid == q) ∘ fun c => logSubtree t fuel c)
        node.children).sum =
        if ∃ c ∈ node.children,
          (q ∈ mapKeys t.nodes ∧ reachesWithin t fuel q c = true) then 1
        else 0 := by
      rw [show (List.countP (fun e => e.pid == q) ∘
          fun c => logSubtree t fuel c) =
          fun c => pidCount (logSubtree t fuel c) q from rfl]
      exact sum_indicator_unique _ _ hterms huniq hchildnd
    rw [hflat, nodeEvent_pid]
    by_cases hqp : q = p
    · subst hqp
      have hEX : ¬∃ c ∈ node.children,
          q ∈ mapKeys t.nodes ∧ reachesWithin t fuel q c = true := by
        rintro ⟨c, hc, _, hrw⟩
        rcases reachesWithin_iff.mp hrw with ⟨k, hk, hanc⟩
        have hcyc : ancIter t (k + 1) q = some q := by
          rw [ancIter_add, hanc]
          show ancIter t 1 c = some q
          rw [ancIter_one]
          exact hchild c hc
        exact no_cycle hterm k hcyc
      rw [if_neg hEX, if_pos (show (q == q) = true by simp),
        if_pos (⟨hp, reachesWithin_iff.mpr ⟨0, Nat.succ_pos fuel, rfl⟩⟩ :
          q ∈ mapKeys t.nodes ∧ reachesWithin t (fuel + 1) q q = true)]
    · have hhead : ¬((p == q) = true) := by
        simp only [beq_iff_eq]
        exact fun h => hqp h.symm
      rw [if_neg hhead]
      have hiff : (∃ c ∈ node.children,
          (q ∈ mapKeys t.nodes ∧ reachesWithin t fuel q c = true)) ↔
          (q ∈ mapKeys t.nodes ∧
            reachesWithin t (fuel + 1) q p = true) := by
        constructor
        · rintro ⟨c, hc, hqk, hrw⟩
          rcases reachesWithin_iff.mp hrw with ⟨k, hk, hanc⟩
          refine ⟨hqk, reachesWithin_iff.mpr
            ⟨k + 1, Nat.succ_lt_succ hk, ?_⟩⟩
          rw [ancIter_add, hanc]
          show ancIter t 1 c = some p
          rw [ancIter_one]
          exact hchild c hc
        · rintro ⟨hqk, hrw⟩
          rcases reachesWithin_iff.mp hrw with ⟨k, hk, hanc⟩
          rcases k with _ | k'
          · exact absurd (Option.some.inj hanc) hqp
          · rw [ancIter_add] at hanc
            rcases hmid : ancIter t k' q with _ | c
            · rw [hmid] at hanc
              exact Option.noConfusion hanc
            · rw [hmid] at hanc
              have hpar : parOf t c = some p := by
                rw [← ancIter_one]
                exact hanc
              refine ⟨c, (hinv.childIff p node c hnode).mpr hpar, hqk,
                reachesWithin_iff.mpr
                  ⟨k', Nat.lt_of_succ_lt_succ hk, hmid⟩⟩
      rw [if_congr hiff rfl rfl, Nat.add_zero]

theorem logEvents_count {t : ProcessTree} (hinv : TreeInv t)
    (fuel : Nat) (q : Pid) :
    pidCount (t.logEvents fuel) q =
      if ∃ r ∈ t.roots,
        (q ∈ mapKeys t.nodes ∧ reachesWithin t fuel q r = true) then 1
      else 0 := by
  rw [ProcessTree.logEvents, pidCount, List.countP_flatten, List.map_map]
  have hg : ∀ r ∈ t.roots,
      (fun r => pidCount (logSubtree t fuel r) q) r =
        if q ∈ mapKeys t.nodes ∧ reachesWithin t fuel q r = true then 1
        else 0 := by
    intro r hr
    obtain ⟨hrk, hrp⟩ := (hinv.rootsChar r).mp hr
    exact logSubtree_count hinv fuel r hrk (terminates_of_parOf_none hrp) q
  have huniq : ∀ r₁ ∈ t.roots, ∀ r₂ ∈ t.roots,
      (q ∈ mapKeys t.nodes ∧ reachesWithin t fuel q r₁ = true) →
      (q ∈ mapKeys t.nodes ∧ reachesWithin t fuel q r₂ = true) →
      r₁ = r₂ := by
    rintro r₁ h₁ r₂ h₂ ⟨_, hr₁⟩ ⟨_, hr₂⟩
    rcases reachesWithin_iff.mp hr₁ with ⟨k₁, hk₁, ha₁⟩
    rcases reachesWithin_iff.mp hr₂ with ⟨k₂, hk₂, ha₂⟩
    have key : ∀ {ka kb : Nat} {ra rb : Pid}, ka < kb →
        ancIter t ka q = some ra → ancIter t kb q = some rb →
        parOf t ra = none → False := by
      intro ka kb ra rb hlt haa hab hpn
      obtain ⟨d, hd⟩ := Nat.le.dest hlt
      have h1 : ancIter t (ka + (d + 1)) q = some rb := by
        have he : ka + (d + 1) = kb := by omega
        rw [he]
        exact hab
      rw [ancIter_add, haa] at h1
      have h1x : ancIter t (d + 1) ra = some rb := h1
      rw [ancIter, hpn] at h1x
      exact Option.noConfusion h1x
    rcases Nat.lt_trichotomy k₁ k₂ with hlt | heq | hgt
    · exact absurd (key hlt ha₁ ha₂ ((hinv.rootsChar r₁).mp h₁).2) id
    · rw [heq, ha₂] at ha₁
      exact (Option.some.inj ha₁).symm
    · exact absurd (key hgt ha₂ ha₁ ((hinv.rootsChar r₂).mp h₂).2) id
  rw [show (List.countP (fun e => e.pid == q) ∘
      fun r => logSubtree t fuel r) =
      fun r => pidCount (logSubtree t fuel r) q from rfl]
  exact sum_indicator_unique _ _ hg huniq (sorted_lt_nodup hinv.rootsSorted)

theorem anc_some_mem {t : ProcessTree} (hinv : TreeInv t) :
    ∀ (i : Nat) (q x : Pid), ancIter t i q = some x →
      q ∈ mapKeys t.nodes → x ∈ mapKeys t.nodes := by
  intro i
  induction i with
  | zero =>
    intro q x h hq
    cases Option.some.inj h
    exact hq
  | succ i ih =>
    intro q x h hq
    rw [ancIter] at h
    rcases hp : parOf t q with _ | a
    · rw [hp] at h
      exact Option.noConfusion h
    · rw [hp] at h
      exact ih a x h (hinv.parKeys q a hp)

theorem anc_some_of_le {t : ProcessTree} {q r : Pid} {k : Nat}
    (hk : ancIter t k q = some r) :
    ∀ i, i ≤ k → ∃ x, ancIter t i q = some x := by
  intro i hi
  rcases h : ancIter t i q with _ | x
  · obtain ⟨d, hd⟩ := Nat.le.dest hi
    rw [← hd, ancIter_none_absorb h d] at hk
    exact Option.noConfusion hk
  · exact ⟨x, rfl⟩

theorem anc_inj_below {t : ProcessTree} {q r : Pid} {k : Nat}
    (hr : parOf t r = none) (hk : ancIter t k q = some r) :
    ∀ i j, i < j → j ≤ k → ancIter t i q ≠ ancIter t j q := by
  intro i j hij hjk heq
  obtain ⟨x, hx⟩ := anc_some_of_le hk i (Nat.le_of_lt (Nat.lt_of_lt_of_le hij hjk))
  have hjx : ancIter t j q = some x := by rw [← heq, hx]
  obtain ⟨d, hd⟩ := Nat.le.dest hij
  have hcyc : ancIter t (d + 1) x = some x := by
    have h1 : ancIter t (i + (d + 1)) q = some x := by
      have he : i + (d + 1) = j := by omega
      rw [he]
      exact hjx
    rw [ancIter_add, hx] at h1
    exact h1
  obtain ⟨e, he⟩ := Nat.le.dest hjk
  have hxr : ancIter t e x = some r := by
    have h2 : ancIter t (j + e) q = some r := by rw [he]; exact hk
    rw [ancIter_add, hjx] at h2
    exact h2
  have hxterm : Terminates t x := by
    refine ⟨e + 1, ?_⟩
    rw [ancIter_add, hxr]
    show ancIter t 1 r = none
    rw [ancIter_one]
    exact hr
  exact no_cycle hxterm d hcyc

theorem reach_lt_length {t : ProcessTree} (hinv : TreeInv t)
    {q r : Pid} {k : Nat} (hq : q ∈ mapKeys t.nodes)
    (hr : parOf t r = none) (hk : ancIter t k q = some r) :
    k < t.nodes.length := by
  have hkeylen : (mapKeys t.nodes).length = t.nodes.length :=
    List.length_map t.nodes Prod.fst
  have hXnd : ((List.range (k + 1)).map
      (fun i => (ancIter t i q).getD 0)).Nodup := by
    apply List.Nodup.map_on ?_ (List.nodup_range (k + 1))
    intro i hi j hj hfe
    rw [List.mem_range] at hi hj
    obtain ⟨x, hx⟩ := anc_some_of_le hk i (by omega)
    obtain ⟨y, hy⟩ := anc_some_of_le hk j (by omega)
    rw [hx, hy] at hfe
    have hxy : x = y := hfe
    have heq : ancIter t i q = ancIter t j q := by
      rw [hx, hy, hxy]
    by_contra hne
    rcases Nat.lt_or_ge i j with hij | hij
    · exact anc_inj_below hr hk i j hij (by omega) heq
    · have hji : j < i := Nat.lt_of_le_of_ne hij (fun h => hne h.symm)
      exact anc_inj_below hr hk j i hji (by omega) heq.symm
  have hXsub : ((List.range (k + 1)).map
      (fun i => (ancIter t i q).getD 0)) ⊆ mapKeys t.nodes := by
    intro x hx
    rcases List.mem_map.mp hx with ⟨i, hi, rfl⟩
    rw [List.mem_range] at hi
    obtain ⟨y, hy⟩ := anc_some_of_le hk i (by omega)
    rw [hy]
    exact anc_some_mem hinv i q y hy hq
  have hle := (List.subperm_of_subset hXnd hXsub).length_le
  rw [List.length_map, List.length_range] at hle
  omega

/-- A pid the depth-first traversal can reach: iterating its parent chain
hits some root. -/
def Reachable (t : ProcessTree) (q : Pid) : Prop :=
  ∃ r ∈ t.roots, ∃ k, ancIter t k q = some r

theorem reachable_iff_within {t : ProcessTree} (hinv : TreeInv t)
    {q : Pid} :
    Reachable t q ↔ ∃ r ∈ t.roots,
      (q ∈ mapKeys t.nodes ∧
        reachesWithin t t.nodes.length q r = true) := by
  constructor
  · rintro ⟨r, hr, k, hk⟩
    have hrn : parOf t r = none := ((hinv.rootsChar r).mp hr).2
    have hq : q ∈ mapKeys t.nodes := by
      rcases k with _ | k'
      · have : q = r := Option.some.inj hk
        rw [this]
        exact ((hinv.rootsChar r).mp hr).1
      · rw [ancIter] at hk
        rcases hp : parOf t q with _ | a
        · rw [hp] at hk
          exact Option.noConfusion hk
        · exact parOf_mem_keys hp
    exact ⟨r, hr, hq, reachesWithin_iff.mpr
      ⟨k, reach_lt_length hinv hq hrn hk, hk⟩⟩
  · rintro ⟨r, hr, _, hrw⟩
    rcases reachesWithin_iff.mp hrw with ⟨k, _, hk⟩
    exact ⟨r, hr, k, hk⟩

theorem logEvents_count_reachable {t : ProcessTree} (hinv : TreeInv t)
    (q : Pid) :
    (Reachable t q →
      pidCount (t.logEvents t.nodes.length) q = 1) ∧
    (¬Reachable t q →
      pidCount (t.logEvents t.nodes.length) q = 0) := by
  constructor
  · intro h
    rw [logEvents_count hinv, if_pos ((reachable_iff_within hinv).mp h)]
  · intro h
    rw [logEvents_count hinv, if_neg
      (fun hc => h ((reachable_iff_within hinv).mpr hc))]

theorem nodeEvent_ne_panic (p x : Pid)
    (i : Res ProcessInfo ProcessInfoError) :
    nodeEvent p i ≠ .lookupPanic x := by
  rcases i with info | e
  · exact fun h => LogEvent.noConfusion h
  · rcases e with _ | _ | _ <;> exact fun h => LogEvent.noConfusion h

theorem logSubtree_no_panic {t : ProcessTree} (hinv : TreeInv t) :
    ∀ (fuel : Nat) (p : Pid), p ∈ mapKeys t.nodes →
    ∀ x, LogEvent.lookupPanic x ∉ logSubtree t fuel p := by
  intro fuel
  induction fuel with
  | zero =>
    intro p hp x h
    simp [logSubtree] at h
  | succ fuel ih =>
    intro p hp x h
    obtain ⟨node, hnode⟩ : ∃ node, mapLookup p t.nodes = some node := by
      rcases hl : mapLookup p t.nodes with _ | node
      · exact absurd (mapLookup_isSome_iff.mpr hp) (by rw [hl]; simp)
      · exact ⟨node, rfl⟩
    rw [show logSubtree t (fuel + 1) p =
        nodeEvent p node.process_info ::
          (node.children.map (fun c => logSubtree t fuel c)).flatten from by
      simp only [logSubtree, hnode]] at h
    rcases List.mem_cons.mp h with h | h
    · exact nodeEvent_ne_panic p x node.process_info h.symm
    · rcases List.mem_flatten.mp h with ⟨lsub, hlsub, hmem⟩
      rcases List.mem_map.mp hlsub with ⟨c, hc, rfl⟩
      exact ih c (parOf_mem_keys ((hinv.childIff p node c hnode).mp hc))
        x hmem

theorem logEvents_no_panic {t : ProcessTree} (hinv : TreeInv t)
    (fuel : Nat) (x : Pid) :
    LogEvent.lookupPanic x ∉ t.logEvents fuel := by
  intro h
  rcases List.mem_flatten.mp h with ⟨lsub, hlsub, hmem⟩
  rcases List.mem_map.mp hlsub with ⟨r, hr, rfl⟩
  exact logSubtree_no_panic hinv fuel r ((hinv.rootsChar r).mp hr).1 x hmem

deriving instance DecidableEq for Except

/-! ## Helper lemmas for the claim theorems -/

theorem parentRef_some_inv {i : Res ProcessInfo ProcessInfoError}
    {pa : Pid} (h : parentRef i = some pa) :
    ∃ info, i = .ok info ∧ info.parent_pid = .ok pa := by
  rcases i with info | e
  · rcases hp : info.parent_pid with a | fe
    · rw [parentRef, hp] at h
      exact ⟨info, rfl, by rw [hp, Option.some.inj h]⟩
    · rw [parentRef, hp] at h
      exact Option.noConfusion h
  · rw [parentRef] at h
    exact Option.noConfusion h

theorem processTreeFrom_append_error
    {l₁ l₂ : List (Pid × Res ProcessInfo ProcessInfoError)}
    {x : Pid × Res ProcessInfo ProcessInfoError} {nodes : NodeMap}
    {e : TreePanic} (hfold : l₁.foldlM applyPair [] = .ok nodes)
    (herr : applyPair nodes x = .error e) :
    processTreeFrom (l₁ ++ x :: l₂) = .error e := by
  rw [processTreeFrom, List.foldlM_append, hfold]
  show (x :: l₂).foldlM applyPair nodes >>= _ = _
  show (applyPair nodes x >>= fun b => l₂.foldlM applyPair b) >>= _ = _
  rw [herr]
  rfl

theorem applyPair_error_of_dup_child {nodes : NodeMap} {p pa : Pid}
    {i : Res ProcessInfo ProcessInfoError} {node : ProcessTreeNode}
    (hpr : parentRef i = some pa)
    (hlook : mapLookup pa nodes = some node) (hdup : p ∈ node.children) :
    applyPair nodes (p, i) = .error .childRegisteredTwice := by
  obtain ⟨info, rfl, hpp⟩ := parentRef_some_inv hpr
  simp only [applyPair, hpp]
  rw [show registerChild nodes pa p = .error .childRegisteredTwice from by
    rw [registerChild, hlook]
    exact if_pos hdup]

theorem applyPair_error_of_settled {nodes : NodeMap} {p : Pid}
    (i₂ : Res ProcessInfo ProcessInfoError) {node : ProcessTreeNode}
    (hlook : mapLookup p nodes = some node)
    (hsettled : node.process_info ≠ placeholderInfo) :
    ∃ e, applyPair nodes (p, i₂) = .error e := by
  rcases hpr : parentRef i₂ with _ | pa
  · refine ⟨.invalidPreexistingInfo, ?_⟩
    rcases i₂ with info | e
    · rcases hpp : info.parent_pid with a | fe
      · rw [parentRef, hpp] at hpr
        exact Option.noConfusion hpr
      · simp only [applyPair, hpp]
        rw [settleNode, hlook]
        exact if_neg hsettled
    · show settleNode nodes p (.err e) = _
      rw [settleNode, hlook]
      exact if_neg hsettled
  · obtain ⟨info, rfl, hpp⟩ := parentRef_some_inv hpr
    rcases hpal : mapLookup pa nodes with _ | npa
    · have hpane : p ≠ pa := by
        intro hc
        rw [hc, hpal] at hlook
        exact Option.noConfusion hlook
      refine ⟨.invalidPreexistingInfo, ?_⟩
      simp only [applyPair, hpp]
      rw [show registerChild nodes pa p =
          .ok (mapInsert pa ⟨placeholderInfo, setInsert p []⟩ nodes) from by
        rw [registerChild, hpal]]
      show settleNode (mapInsert pa ⟨placeholderInfo, setInsert p []⟩ nodes)
        p (.ok info) = _
      rw [settleNode, mapLookup_mapInsert_ne hpane, hlook]
      exact if_neg hsettled
    · by_cases hdup : p ∈ npa.children
      · exact ⟨.childRegisteredTwice,
          applyPair_error_of_dup_child hpr hpal hdup⟩
      · refine ⟨.invalidPreexistingInfo, ?_⟩
        simp only [applyPair, hpp]
        rw [show registerChild nodes pa p = .ok (mapInsert pa
            ⟨npa.process_info, setInsert p npa.children⟩ nodes) from by
          rw [registerChild, hpal]
          exact if_neg hdup]
        show settleNode (mapInsert pa
          ⟨npa.process_info, setInsert p npa.children⟩ nodes) p
          (.ok info) = _
        by_cases hppa : p = pa
        · subst hppa
          rw [settleNode, mapLookup_mapInsert_self]
          rw [hlook] at hpal
          cases Option.some.inj hpal
          exact if_neg hsettled
        · rw [settleNode, mapLookup_mapInsert_ne hppa, hlook]
          exact if_neg hsettled

theorem tryCollect_err {T E : Type} :
    ∀ (l : List (Res T E)), (∃ x ∈ l, ∃ e, x = Res.err e) →
    ∃ e, tryCollect l = .err e := by
  intro l
  induction l with
  | nil =>
    rintro ⟨x, hx, _⟩
    cases hx
  | cons x rest ih =>
    rintro ⟨y, hy, e, rfl⟩
    rcases List.mem_cons.mp hy with hy1 | hy2
    · rw [← hy1]
      exact ⟨e, rfl⟩
    · rcases x with v | e'
      · obtain ⟨e'', he''⟩ := ih ⟨.err e, hy2, e, rfl⟩
        refine ⟨e'', ?_⟩
        rw [tryCollect, he'']
      · exact ⟨e', rfl⟩

theorem tryCollect_ok {T E : Type} :
    ∀ (l : List (Res T E)), (∀ x ∈ l, ∀ e, x ≠ Res.err e) →
    ∃ vs, tryCollect l = .ok vs := by
  intro l
  induction l with
  | nil => exact fun _ => ⟨[], rfl⟩
  | cons x rest ih =>
    intro h
    rcases x with v | e'
    · obtain ⟨vs, hvs⟩ := ih (fun y hy => h y (List.mem_cons_of_mem _ hy))
      refine ⟨v :: vs, ?_⟩
      rw [tryCollect, hvs]
    · exact absurd rfl (h (.err e') (List.mem_cons_self _ _) e')

/-! ## Characterizing get_process_info on well-formed query responses -/

/-- The record-level abort (if any) that one attribute query response
triggers in `get_info_field!`: `NoSuchProcess` and `ZombieProcess`
invalidate the whole record. -/
def recordAbort {T : Type} (q : Res T ProcessError) :
    Option ProcessInfoError :=
  match q with
  | .err (.noSuchProcess _) => some .noSuchProcess
  | .err (.zombieProcess _) => some .zombieProcess
  | _ => none

/-- The record-level aborts of the five attribute queries, in the order
`get_info_struct!` evaluates them. -/
def recordAborts (p : Process) : List (Option ProcessInfoError) :=
  [recordAbort p.parent_pid, recordAbort p.name, recordAbort p.exe,
   recordAbort p.command, recordAbort p.create_time]

/-- How a query response lands in its `ProcessInfo` field when it does not
abort the record: a value stays a value, an access denial degrades just
this field. -/
def degradeField {T : Type} (q : Res T ProcessError) :
    Res T ProcessInfoFieldError :=
  match q with
  | .ok v => .ok v
  | .err _ => .err .accessDenied

/-- A query response heim can actually give for a live process handle:
either a value, or a pid-tagged error carrying the queried pid (heim's
contract, which the source's `assert_eq!` checks), with no infrastructure
(`Load`) failure. -/
def wfQuery {T : Type} (pid : Pid) (q : Res T ProcessError) : Prop :=
  (∃ v, q = .ok v) ∨ q = .err (.accessDenied pid) ∨
    q = .err (.noSuchProcess pid) ∨ q = .err (.zombieProcess pid)

theorem getInfoField_wf {T : Type} {pid : Pid} {q : Res T ProcessError}
    (h : wfQuery pid q) :
    getInfoField pid q =
      match recordAbort q with
      | some e => .abortRecord e
      | none => .field (degradeField q) := by
  rcases h with ⟨v, rfl⟩ | rfl | rfl | rfl
  · rfl
  · simp [getInfoField, recordAbort, degradeField]
  · simp [getInfoField, recordAbort, degradeField]
  · simp [getInfoField, recordAbort, degradeField]

theorem getProcessInfo_wf (p : Process)
    (h1 : wfQuery p.pid p.parent_pid) (h2 : wfQuery p.pid p.name)
    (h3 : wfQuery p.pid p.exe) (h4 : wfQuery p.pid p.command)
    (h5 : wfQuery p.pid p.create_time) :
    getProcessInfo (.ok p) =
      match (recordAborts p).findSome? id with
      | some e => .ok (.ok (p.pid, .err e))
      | none => .ok (.ok (p.pid, .ok
          ⟨degradeField p.parent_pid, degradeField p.name,
           degradeField p.exe, degradeField p.command,
           degradeField p.create_time⟩)) := by
  rcases ha1 : recordAbort p.parent_pid with _ | e1
  · rcases ha2 : recordAbort p.name with _ | e2
    · rcases ha3 : recordAbort p.exe with _ | e3
      · rcases ha4 : recordAbort p.command with _ | e4
        · rcases ha5 : recordAbort p.create_time with _ | e5
          · simp only [getProcessInfo, getInfoField_wf h1,
              getInfoField_wf h2, getInfoField_wf h3, getInfoField_wf h4,
              getInfoField_wf h5, ha1, ha2, ha3, ha4, ha5, recordAborts,
              List.findSome?, id_eq]
          · simp only [getProcessInfo, getInfoField_wf h1,
              getInfoField_wf h2, getInfoField_wf h3, getInfoField_wf h4,
              getInfoField_wf h5, ha1, ha2, ha3, ha4, ha5, recordAborts,
              List.findSome?, id_eq]
        · simp only [getProcessInfo, getInfoField_wf h1,
            getInfoField_wf h2, getInfoField_wf h3, getInfoField_wf h4,
            ha1, ha2, ha3, ha4, recordAborts, List.findSome?, id_eq]
      · simp only [getProcessInfo, getInfoField_wf h1, getInfoField_wf h2,
          getInfoField_wf h3, ha1, ha2, ha3, recordAborts, List.findSome?,
          id_eq]
    · simp only [getProcessInfo, getInfoField_wf h1, getInfoField_wf h2,
        ha1, ha2, recordAborts, List.findSome?, id_eq]
  · simp only [getProcessInfo, getInfoField_wf h1, ha1, recordAborts,
      List.findSome?, id_eq]

/-! ## Claim theorems -/

theorem authInfo_perm {l l' : List (Pid × Res ProcessInfo ProcessInfoError)}
    (hperm : l.Perm l') (hnd : (l.map Prod.fst).Nodup) (p : Pid) :
    authInfo l p = authInfo l' p := by
  have hnd' : (l'.map Prod.fst).Nodup :=
    ((hperm.map Prod.fst).nodup_iff).mp hnd
  rcases ha : authInfo l p with _ | j
  · have hp : p ∉ l.map Prod.fst := by
      intro hc
      rcases List.mem_map.mp hc with ⟨⟨p', j'⟩, hmem, he⟩
      have hpp : p' = p := he
      subst hpp
      rw [authInfo_of_mem hnd hmem] at ha
      exact Option.noConfusion ha
    have hp' : p ∉ l'.map Prod.fst := by
      intro hc
      exact hp (((hperm.map Prod.fst).mem_iff).mpr hc)
    rw [authInfo_eq_none hp']
  · rw [authInfo_of_mem hnd' (hperm.subset (authInfo_mem ha))]

/-- C1: For every finite collection of `(ProcessIdentifier, RecordOutcome)`
pairs with no duplicate identifiers (which also rules out every integrity
violation, since the builder is proved total on such batches), and for
every permutation of that collection, the Tree Builder (`ProcessTree::from`,
embedded as `processTreeFrom`) returns the same `ProcessTree`: equality of
the canonical embedding is exactly "same root set, same children set for
every node, same outcome for every node". -/
theorem c1_order_independence
    (l l' : List (Pid × Res ProcessInfo ProcessInfoError))
    (hperm : l.Perm l') (hnd : (l.map Prod.fst).Nodup) :
    processTreeFrom l = processTreeFrom l' := by
  have hnd' : (l'.map Prod.fst).Nodup :=
    ((hperm.map Prod.fst).nodup_iff).mp hnd
  obtain ⟨n1, h1, bc1⟩ := processTreeFrom_ok hnd
  obtain ⟨n2, h2, bc2⟩ := processTreeFrom_ok hnd'
  have hkeys : ∀ q, q ∈ mapKeys n1 ↔ q ∈ mapKeys n2 := by
    intro q
    rw [bc1.keysMem, bc2.keysMem]
    constructor
    · rintro (h | h)
      · exact Or.inl (((hperm.map Prod.fst).mem_iff).mp h)
      · exact Or.inr (((hperm.filterMap (fun x => parentRef x.2)).mem_iff).mp h)
    · rintro (h | h)
      · exact Or.inl (((hperm.map Prod.fst).mem_iff).mpr h)
      · exact Or.inr (((hperm.filterMap (fun x => parentRef x.2)).mem_iff).mpr h)
  have hnodes : n1 = n2 := by
    apply sorted_map_ext bc1.keysSorted bc2.keysSorted
    intro q
    rcases hl1 : mapLookup q n1 with _ | node1
    · rcases hl2 : mapLookup q n2 with _ | node2
      · rfl
      · have hq2 : q ∈ mapKeys n2 :=
          mapLookup_isSome_iff.mp (by rw [hl2]; rfl)
        exact absurd ((hkeys q).mpr hq2) (mapLookup_eq_none_iff.mp hl1)
    · rcases hl2 : mapLookup q n2 with _ | node2
      · have hq1 : q ∈ mapKeys n1 :=
          mapLookup_isSome_iff.mp (by rw [hl1]; rfl)
        exact absurd ((hkeys q).mp hq1) (mapLookup_eq_none_iff.mp hl2)
      · have hinfo : node1.process_info = node2.process_info := by
          rw [bc1.infoChar q node1 hl1, bc2.infoChar q node2 hl2,
            authInfo_perm hperm hnd q]
        have hch : node1.children = node2.children := by
          apply sorted_set_ext (bc1.childrenSorted q node1 hl1)
            (bc2.childrenSorted q node2 hl2)
          intro x
          rw [bc1.childChar q node1 x hl1, bc2.childChar q node2 x hl2]
          constructor
          · rintro ⟨j, hj, hjr⟩
            exact ⟨j, hperm.subset hj, hjr⟩
          · rintro ⟨j, hj, hjr⟩
            exact ⟨j, hperm.symm.subset hj, hjr⟩
        cases node1
        cases node2
        cases hinfo
        cases hch
        rfl
  rw [h1, h2, hnodes]

/-- A sample fully-available record whose parent field carries `pp`. -/
def infoWithParent (pp : Pid) : ProcessInfo :=
  ⟨.ok pp, .ok "child", .ok "/bin/true", .ok [], .ok 0⟩

/-- A sample record whose parent field was denied. -/
def infoNoParent : ProcessInfo :=
  ⟨.err .accessDenied, .ok "init", .ok "/sbin/init", .ok [], .ok 0⟩

theorem c1_order_independence_witness :
    processTreeFrom [(2, .ok (infoWithParent 1)), (1, .err .noSuchProcess)] =
      processTreeFrom
        [(1, .err .noSuchProcess), (2, .ok (infoWithParent 1))] :=
  c1_order_independence _ _ (by decide) (by decide)

theorem isRootInfo_cases {i : Res ProcessInfo ProcessInfoError} :
    isRootInfo i = true ↔
      ((∃ e, i = .err e) ∨
        ∃ info, i = .ok info ∧ ∃ fe, info.parent_pid = .err fe) := by
  rcases i with info | e
  · rw [isRootInfo]
    rcases hp : info.parent_pid with a | fe
    · simp only [hp]
      constructor
      · intro h
        exact Bool.noConfusion h
      · rintro (⟨e, he⟩ | ⟨info', hinfo', fe, hfe⟩)
        · exact Res.noConfusion he
        · cases Res.ok.inj hinfo'
          rw [hp] at hfe
          exact Res.noConfusion hfe
    · simp only [hp]
      constructor
      · intro _
        exact Or.inr ⟨info, rfl, fe, hp⟩
      · intro _
        trivial
  · rw [isRootInfo]
    constructor
    · intro _
      exact Or.inl ⟨e, rfl⟩
    · intro _
      trivial

/-- C3: After the Tree Builder consumes all pairs of a duplicate-free
batch, an identifier is in `roots` if and only if its node's outcome is
not `Available` (it is a record-level error), or the outcome is
`Available` but the parent field is denied; equivalently, roots are
exactly the identifiers whose resolved parent is unknown.  (The embedded
parent field, like the source's, has no "legitimately carries no value"
case: a top-of-tree process surfaces as a parent reference to a pid, such
as 0, that no record claims, so that disjunct of the claim is vacuous.) -/
theorem c3_roots_characterization
    (l : List (Pid × Res ProcessInfo ProcessInfoError))
    (hnd : (l.map Prod.fst).Nodup) {t : ProcessTree}
    (ht : processTreeFrom l = .ok t) (p : Pid) :
    p ∈ t.roots ↔ ∃ node, mapLookup p t.nodes = some node ∧
      ((∃ e, node.process_info = .err e) ∨
        ∃ info, node.process_info = .ok info ∧
          ∃ fe, info.parent_pid = .err fe) := by
  obtain ⟨n, hok, bc⟩ := processTreeFrom_ok hnd
  rw [ht] at hok
  cases Except.ok.inj hok
  show p ∈ computeRoots n ↔
    ∃ node, mapLookup p n = some node ∧ _
  rw [mem_computeRoots]
  constructor
  · rintro ⟨node, hmem, hroot⟩
    exact ⟨node, (mapLookup_eq_some_iff_mem bc.keysSorted).mpr hmem,
      isRootInfo_cases.mp hroot⟩
  · rintro ⟨node, hlook, hcond⟩
    exact ⟨node, (mapLookup_eq_some_iff_mem bc.keysSorted).mp hlook,
      isRootInfo_cases.mpr hcond⟩

theorem c3_roots_characterization_witness :
    (5 : Pid) ∈ (ProcessTree.mk [5] [(5, ⟨.ok infoNoParent, []⟩)]).roots ↔
      ∃ node, mapLookup 5
        (ProcessTree.mk [5] [(5, ⟨.ok infoNoParent, []⟩)]).nodes =
          some node ∧
        ((∃ e, node.process_info = .err e) ∨
          ∃ info, node.process_info = .ok info ∧
            ∃ fe, info.parent_pid = .err fe) :=
  c3_roots_characterization [(5, .ok infoNoParent)] (by decide) rfl 5

/-- C4: In a tree built from a duplicate-free batch, a node created only
because another record named it as parent (its pid is not among the
batch's identifiers) carries the sentinel `Vanished` outcome
(`Err(NoSuchProcess)`), and a node whose authoritative record was supplied
carries exactly that supplied outcome.  The witness instantiates the
scenario `{(7, Available{parent: 99})}`: node 99 exists with the sentinel
outcome and children `[7]`, and 99 is a root. -/
theorem c4_placeholder_settlement
    (l : List (Pid × Res ProcessInfo ProcessInfoError))
    (hnd : (l.map Prod.fst).Nodup) {t : ProcessTree}
    (ht : processTreeFrom l = .ok t) :
    (∀ p node, mapLookup p t.nodes = some node → p ∉ l.map Prod.fst →
      node.process_info = .err .noSuchProcess) ∧
    (∀ p i, (p, i) ∈ l → ∃ node, mapLookup p t.nodes = some node ∧
      node.process_info = i) := by
  obtain ⟨n, hok, bc⟩ := processTreeFrom_ok hnd
  rw [ht] at hok
  cases Except.ok.inj hok
  constructor
  · intro p node hlook hp
    have hi := bc.infoChar p node hlook
    rw [authInfo_eq_none hp] at hi
    exact hi
  · intro p i hmem
    have hk : p ∈ mapKeys n := by
      rw [bc.keysMem]
      exact Or.inl (List.mem_map.mpr ⟨(p, i), hmem, rfl⟩)
    obtain ⟨node, hl⟩ : ∃ node, mapLookup p n = some node := by
      rcases hli : mapLookup p n with _ | node
      · exact absurd (mapLookup_isSome_iff.mpr hk) (by rw [hli]; simp)
      · exact ⟨node, rfl⟩
    have hi := bc.infoChar p node hl
    rw [authInfo_of_mem hnd hmem] at hi
    exact ⟨node, hl, hi⟩

/-- The scenario-D batch: a single record whose parent 99 is never
supplied. -/
def scenarioD : List (Pid × Res ProcessInfo ProcessInfoError) :=
  [(7, .ok (infoWithParent 99))]

/-- The tree the builder produces for `scenarioD`. -/
def scenarioDTree : ProcessTree :=
  ⟨[99], [(7, ⟨.ok (infoWithParent 99), []⟩),
          (99, ⟨.err .noSuchProcess, [7]⟩)]⟩

theorem c4_placeholder_settlement_witness :
    mapLookup 99 scenarioDTree.nodes =
      some ⟨.err .noSuchProcess, [7]⟩ ∧
    (99 : Pid) ∈ scenarioDTree.roots ∧
    (∃ node, mapLookup 99 scenarioDTree.nodes = some node ∧
      node.process_info = .err .noSuchProcess) ∧
    (∃ node, mapLookup 7 scenarioDTree.nodes = some node ∧
      node.process_info = .ok (infoWithParent 99)) :=
  ⟨by decide, by decide,
    ⟨⟨.err .noSuchProcess, [7]⟩, by decide,
      (c4_placeholder_settlement scenarioD (by decide) rfl).1 99
        ⟨.err .noSuchProcess, [7]⟩ (by decide) (by decide)⟩,
    (c4_placeholder_settlement scenarioD (by decide) rfl).2 7
      (.ok (infoWithParent 99)) (by decide)⟩

/-- C6: If, while processing a batch, the Tree Builder reaches a pair
that would register an identifier a second time under a parent's children
set, the whole invocation fails — the remainder of the batch is never
processed and no tree is returned — and the failure is reported in the
`TreePanic` channel (the embedding of the source's assertion panics), a
taxonomy separate from the `ProcessInfoError` type that carries legitimate
OS-reported failures. -/
theorem c6_duplicate_child_registration_fails
    (l₁ l₂ : List (Pid × Res ProcessInfo ProcessInfoError)) (p pa : Pid)
    (i : Res ProcessInfo ProcessInfoError) (nodes : NodeMap)
    (node : ProcessTreeNode)
    (hfold : l₁.foldlM applyPair [] = .ok nodes)
    (hpr : parentRef i = some pa)
    (hlook : mapLookup pa nodes = some node)
    (hdup : p ∈ node.children) :
    processTreeFrom (l₁ ++ (p, i) :: l₂) = .error .childRegisteredTwice :=
  processTreeFrom_append_error hfold
    (applyPair_error_of_dup_child hpr hlook hdup)

theorem c6_duplicate_child_registration_fails_witness :
    processTreeFrom [(3, .ok (infoWithParent 1)), (3, .ok (infoWithParent 1))] =
      .error .childRegisteredTwice :=
  c6_duplicate_child_registration_fails
    [(3, .ok (infoWithParent 1))] [] 3 1 (.ok (infoWithParent 1))
    [(1, ⟨.err .noSuchProcess, [3]⟩), (3, ⟨.ok (infoWithParent 1), []⟩)]
    ⟨.err .noSuchProcess, [3]⟩ rfl rfl (by decide) (by decide)

/-- C7 counterexample: the claim "a second authoritative outcome for an
identifier whose node is already settled makes the builder fail" is false
on the code.  Here the authoritative outcome `Err(NoSuchProcess)` (a real
`Vanished` record) settles node 5 — first conjunct — yet a later second
authoritative outcome for 5 does not fail: the builder succeeds and
silently overwrites the stored outcome, because a settled `Vanished`
outcome is indistinguishable from the placeholder sentinel. -/
theorem c7_counterexample :
    List.foldlM applyPair ([] : NodeMap)
      [((5 : Pid), (.err .noSuchProcess : Res ProcessInfo ProcessInfoError))] =
      .ok [(5, ⟨.err .noSuchProcess, []⟩)] ∧
    processTreeFrom [(5, .err .noSuchProcess), (5, .ok infoNoParent)] =
      .ok ⟨[5], [(5, ⟨.ok infoNoParent, []⟩)]⟩ :=
  ⟨rfl, rfl⟩

/-- C7 (amended): the builder lets a node's outcome be overwritten only
while it holds the `Vanished` sentinel (whether as a placeholder or as an
authoritatively supplied `Vanished` record, which are indistinguishable);
whenever a further outcome arrives for an identifier whose node currently
holds any outcome other than the sentinel, the whole invocation fails with
a data-integrity panic instead of overwriting it. -/
theorem c7_second_outcome_fails_unless_vanished
    (l₁ l₂ : List (Pid × Res ProcessInfo ProcessInfoError)) (p : Pid)
    (i₂ : Res ProcessInfo ProcessInfoError) (nodes : NodeMap)
    (node : ProcessTreeNode)
    (hfold : l₁.foldlM applyPair [] = .ok nodes)
    (hlook : mapLookup p nodes = some node)
    (hsettled : node.process_info ≠ placeholderInfo) :
    ∃ e, processTreeFrom (l₁ ++ (p, i₂) :: l₂) = .error e := by
  obtain ⟨e, he⟩ := applyPair_error_of_settled i₂ hlook hsettled
  exact ⟨e, processTreeFrom_append_error hfold he⟩

theorem c7_second_outcome_fails_unless_vanished_witness :
    ∃ e, processTreeFrom
      [(5, .ok infoNoParent), (5, .err .zombieProcess)] = .error e :=
  c7_second_outcome_fails_unless_vanished
    [(5, .ok infoNoParent)] [] 5 (.err .zombieProcess)
    [(5, ⟨.ok infoNoParent, []⟩)] ⟨.ok infoNoParent, []⟩
    rfl rfl (by decide)

/-- The cyclic batch 1 ↔ 2: each record names the other as parent.  The
builder accepts it (no integrity violation fires). -/
def cyclicBatch : List (Pid × Res ProcessInfo ProcessInfoError) :=
  [(1, .ok (infoWithParent 2)), (2, .ok (infoWithParent 1))]

/-- The tree the builder produces for `cyclicBatch`: both nodes exist,
each is the other's child, and the root set is empty. -/
def cyclicTree : ProcessTree :=
  ⟨[], [(1, ⟨.ok (infoWithParent 2), [2]⟩),
        (2, ⟨.ok (infoWithParent 1), [1]⟩)]⟩

/-- C8 counterexample: the claim "the Tree Reporter emits exactly one
descriptive event per node" is false on the code for a fully built tree
with a parent cycle: the builder accepts the cyclic batch and produces a
two-node tree with an empty root set, and the reporter then emits no
event at all — node 1 is a node of the tree but receives zero events (for
any recursion depth; the fuel shown is the one `logReport` uses). -/
theorem c8_counterexample :
    processTreeFrom cyclicBatch = .ok cyclicTree ∧
    (1 : Pid) ∈ mapKeys cyclicTree.nodes ∧
    cyclicTree.logEvents cyclicTree.nodes.length = [] ∧
    pidCount (cyclicTree.logEvents cyclicTree.nodes.length) 1 = 0 :=
  ⟨rfl, by decide, rfl, rfl⟩

/-- C8 (amended): given a tree built from a duplicate-free batch, the
Tree Reporter — which by definition visits roots in ascending identifier
order and, for each node, its children in ascending identifier order,
depth-first before the next sibling — emits exactly one descriptive event
per node whose parent chain reaches a root (every such visit happens
within recursion depth `t.nodes.length`, the fuel used by `logReport`),
and zero events for a node on or behind a parent-reference cycle, which
the traversal cannot reach from any root. -/
theorem c8_one_event_per_reachable_node
    (l : List (Pid × Res ProcessInfo ProcessInfoError))
    (hnd : (l.map Prod.fst).Nodup) {t : ProcessTree}
    (ht : processTreeFrom l = .ok t) (q : Pid) :
    (Reachable t q → pidCount (t.logEvents t.nodes.length) q = 1) ∧
    (¬Reachable t q → pidCount (t.logEvents t.nodes.length) q = 0) := by
  obtain ⟨n, hok, bc⟩ := processTreeFrom_ok hnd
  rw [ht] at hok
  cases Except.ok.inj hok
  exact logEvents_count_reachable (treeInv_of_build hnd bc) q

theorem c8_one_event_per_reachable_node_witness :
    pidCount (scenarioDTree.logEvents scenarioDTree.nodes.length) 7 = 1 :=
  (c8_one_event_per_reachable_node scenarioD (by decide) rfl 7).1
    ⟨99, by decide, 1, by decide⟩

/-- C9: In every tree returned by the Tree Builder from a duplicate-free
batch, every identifier occurring in `roots` or in any node's children
set is a key of the node map, so every lookup the reporter performs
during traversal succeeds: the embedded counterpart of the
`self.nodes[&current_pid]` panic (`LogEvent.lookupPanic`) never appears
in the emitted events, whatever the recursion depth. -/
theorem c9_traversal_lookups_never_panic
    (l : List (Pid × Res ProcessInfo ProcessInfoError))
    (hnd : (l.map Prod.fst).Nodup) {t : ProcessTree}
    (ht : processTreeFrom l = .ok t) :
    (∀ r, r ∈ t.roots → r ∈ mapKeys t.nodes) ∧
    (∀ p node c, mapLookup p t.nodes = some node → c ∈ node.children →
      c ∈ mapKeys t.nodes) ∧
    (∀ fuel x, LogEvent.lookupPanic x ∉ t.logEvents fuel) := by
  obtain ⟨n, hok, bc⟩ := processTreeFrom_ok hnd
  rw [ht] at hok
  cases Except.ok.inj hok
  have hinv := treeInv_of_build hnd bc
  refine ⟨?_, ?_, ?_⟩
  · intro r hr
    exact ((hinv.rootsChar r).mp hr).1
  · intro p node c hl hc
    exact parOf_mem_keys ((hinv.childIff p node c hl).mp hc)
  · intro fuel x
    exact logEvents_no_panic hinv fuel x

theorem c9_traversal_lookups_never_panic_witness :
    LogEvent.lookupPanic 3 ∉ scenarioDTree.logEvents 2 :=
  (c9_traversal_lookups_never_panic scenarioD (by decide) rfl).2.2 2 3

/-- C2: In the process-reporting path of `main`, if the batch of
enumeration outcomes contains any batch-fatal failure (a `heim` error,
the spec's `FatalFailure`), the whole operation fails: `try_collect`
surfaces an error, no `ProcessTree` is built and no per-node events are
emitted, regardless of how many successful per-process results the batch
also contains; and only when every element of the batch is a (possibly
degraded) per-process outcome does the Tree Builder and Reporter run, on
exactly the collected outcomes. -/
theorem c2_batch_atomicity
    (results : List (Res (Pid × Res ProcessInfo ProcessInfoError)
      HeimError)) :
    ((∃ x ∈ results, ∃ e, x = Res.err e) →
      ∃ e, mainProcessReport results = .err e) ∧
    ((∀ x ∈ results, ∀ e, x ≠ Res.err e) →
      ∃ processes, tryCollect results = .ok processes ∧
        mainProcessReport results = .ok (logReport processes)) := by
  constructor
  · intro h
    obtain ⟨e, he⟩ := tryCollect_err results h
    refine ⟨e, ?_⟩
    rw [mainProcessReport, he]
  · intro h
    obtain ⟨ps, hps⟩ := tryCollect_ok results h
    refine ⟨ps, hps, ?_⟩
    rw [mainProcessReport, hps]

/-- A batch with one degraded per-process result and one batch-fatal
heim failure. -/
def fatalResults :
    List (Res (Pid × Res ProcessInfo ProcessInfoError) HeimError) :=
  [.ok (1, .err .noSuchProcess), .err (.load 0)]

/-- A batch in which every query was answered. -/
def okOnlyResults :
    List (Res (Pid × Res ProcessInfo ProcessInfoError) HeimError) :=
  [.ok (1, .err .noSuchProcess)]

theorem c2_batch_atomicity_witness :
    (∃ e, mainProcessReport fatalResults = .err e) ∧
    (∃ processes, tryCollect okOnlyResults = .ok processes ∧
      mainProcessReport okOnlyResults = .ok (logReport processes)) :=
  ⟨(c2_batch_atomicity fatalResults).1
      ⟨Res.err (HeimError.load 0), by decide, HeimError.load 0, rfl⟩,
    (c2_batch_atomicity okOnlyResults).2 (by
      intro x hx e
      rw [okOnlyResults, List.mem_singleton] at hx
      subst hx
      exact fun h => Res.noConfusion h)⟩

/-- C5 counterexample: the claim "for every identified process the record
outcome is exactly one of Available, Vanished, Zombie" is false on the
code: when heim denies building the `Process` handle itself,
`get_process_info` returns the pid with the record-level outcome
`Err(AccessDenied)`, which is none of the three (the last two conjuncts
separate it from `Vanished` and `Zombie`; being an `Err` it is not
`Available` either). -/
theorem c5_counterexample :
    getProcessInfo (.err (.accessDenied 3)) =
      .ok (.ok (3, .err .accessDenied)) ∧
    ProcessInfoError.accessDenied ≠ ProcessInfoError.noSuchProcess ∧
    ProcessInfoError.accessDenied ≠ ProcessInfoError.zombieProcess :=
  ⟨rfl, by decide, by decide⟩

/-- C5 (amended): for every identified process (a pid was obtained), the
record outcome is exactly one of four mutually exclusive cases:
`Available`, `Vanished` (`NoSuchProcess`), `Zombie`, or record-level
`AccessDenied`; record-level failures are `Vanished`, `Zombie`, or
`AccessDenied`. -/
theorem c5_record_outcome_totality
    (er : Res Process ProcessError) (pid : Pid)
    (out : Res ProcessInfo ProcessInfoError)
    (h : getProcessInfo er = .ok (.ok (pid, out))) :
    (∃ info, out = .ok info) ∨ out = .err .noSuchProcess ∨
      out = .err .zombieProcess ∨ out = .err .accessDenied := by
  rcases out with info | e
  · exact Or.inl ⟨info, rfl⟩
  · rcases e with _ | _ | _
    · exact Or.inr (Or.inr (Or.inr rfl))
    · exact Or.inr (Or.inl rfl)
    · exact Or.inr (Or.inr (Or.inl rfl))

theorem c5_record_outcome_totality_witness :
    (∃ info, (Res.err ProcessInfoError.noSuchProcess :
        Res ProcessInfo ProcessInfoError) = .ok info) ∨
      (Res.err ProcessInfoError.noSuchProcess :
        Res ProcessInfo ProcessInfoError) = .err .noSuchProcess ∨
      (Res.err ProcessInfoError.noSuchProcess :
        Res ProcessInfo ProcessInfoError) = .err .zombieProcess ∨
      (Res.err ProcessInfoError.noSuchProcess :
        Res ProcessInfo ProcessInfoError) = .err .accessDenied :=
  c5_record_outcome_totality (.err (.noSuchProcess 4)) 4
    (.err .noSuchProcess) rfl

/-- C10: For an identified process whose five attribute queries each
answer with a value or a pid-tagged process error (no infrastructure
failure), if any query reports that the process no longer exists or is a
zombie, `get_process_info` abandons the record and returns the pid paired
with the corresponding record-level outcome — the one of the first such
query in evaluation order — discarding every field value already
retrieved; whereas if no query aborts the record, each access denial
degrades only its own field and all other field values are kept. -/
theorem c10_field_failure_severity (p : Process)
    (h1 : wfQuery p.pid p.parent_pid) (h2 : wfQuery p.pid p.name)
    (h3 : wfQuery p.pid p.exe) (h4 : wfQuery p.pid p.command)
    (h5 : wfQuery p.pid p.create_time) :
    (∀ e, (recordAborts p).findSome? id = some e →
      getProcessInfo (.ok p) = .ok (.ok (p.pid, .err e))) ∧
    ((recordAborts p).findSome? id = none →
      getProcessInfo (.ok p) = .ok (.ok (p.pid, .ok
        ⟨degradeField p.parent_pid, degradeField p.name,
         degradeField p.exe, degradeField p.command,
         degradeField p.create_time⟩))) := by
  have hw := getProcessInfo_wf p h1 h2 h3 h4 h5
  constructor
  · intro e he
    rw [hw, he]
  · intro he
    rw [hw, he]

/-- A process handle whose name query is denied and whose exe query
reports a zombie. -/
def zombieProcessHandle : Process :=
  ⟨4, .ok 1, .err (.accessDenied 4), .err (.zombieProcess 4), .ok [],
    .ok 0⟩

theorem c10_field_failure_severity_witness :
    getProcessInfo (.ok zombieProcessHandle) =
      .ok (.ok (zombieProcessHandle.pid, .err .zombieProcess)) :=
  (c10_field_failure_severity zombieProcessHandle
    (Or.inl ⟨1, rfl⟩) (Or.inr (Or.inl rfl))
    (Or.inr (Or.inr (Or.inr rfl))) (Or.inl ⟨[], rfl⟩)
    (Or.inl ⟨0, rfl⟩)).1 .zombieProcess rfl
